import Mathlib

/-!
# Collaborative canvas server — verification of the room/operation core

Shallow embedding of `server/rooms.js` (class `RoomManager`) and the calls made
into it by the gateway `server/index.js`.  JavaScript `Map`s are modelled as
insertion-ordered association lists with the exact `get`/`set`/`delete`
semantics of the ECMAScript `Map` (update in place keeps the position, `set` of
a fresh key appends at the end, `delete` returns whether the key was present).
`Date.now()` is an explicit `now` parameter.  String-valued fields that
participate in lookups and identifier minting (`roomId`, `opID`) are
`List Char`; opaque identifiers (`socketId`, usernames, op `type` tags) are
`String`.  The aliasing between `room.ops` and `room.opMap` (the map holds
references to the very objects stored in the log) is modelled by letting
`opMap` store the *position* of each op inside `ops`; ops are only ever
appended, so positions are stable, and a mutation through the map is a
mutation of the log entry.
-/

namespace Canvas

/-! ## Association-list model of the ECMAScript `Map` -/

/-- Models `Map.prototype.get`: the value of the (first) entry with this key. -/
def mapGet {κ α : Type} [DecidableEq κ] (k : κ) : List (κ × α) → Option α
  | [] => none
  | (k', v) :: rest => if k' = k then some v else mapGet k rest

/-- Models `Map.prototype.set`: overwrite in place when the key exists (keeps
its position in iteration order), otherwise append at the end. -/
def mapSet {κ α : Type} [DecidableEq κ] (k : κ) (v : α) : List (κ × α) → List (κ × α)
  | [] => [(k, v)]
  | (k', v') :: rest => if k' = k then (k, v) :: rest else (k', v') :: mapSet k v rest

/-- Models `Map.prototype.delete`: remove the entry if present; the `Bool` is
the return value of `delete` (whether the map contained the key). -/
def mapDelete {κ α : Type} [DecidableEq κ] (k : κ) : List (κ × α) → Bool × List (κ × α)
  | [] => (false, [])
  | (k', v') :: rest =>
    if k' = k then (true, rest)
    else
      let r := mapDelete k rest
      (r.1, (k', v') :: r.2)

/-! ## Construction of `opID`

Models `` const opID = `${roomId}::${String(seq).padStart(6, '0')}` `` from
`appendOp`.  `String(n)` for a natural number is its decimal digit string; we
compute it with an explicit fuel (`n` itself suffices) so that everything
reduces in the kernel. -/

/-- The character of a decimal digit (`String(n)` emits only these; the
catch-all arm is never reached on digits). -/
def digitChar (d : Nat) : Char :=
  match d with
  | 0 => '0' | 1 => '1' | 2 => '2' | 3 => '3' | 4 => '4'
  | 5 => '5' | 6 => '6' | 7 => '7' | 8 => '8' | 9 => '9'
  | _ => '*'

/-- Decimal digits of `n`, most significant first; `[]` for `n = 0`. -/
def natDigitsAux : Nat → Nat → List Char
  | 0, _ => []
  | fuel + 1, n => if n = 0 then [] else natDigitsAux fuel (n / 10) ++ [digitChar (n % 10)]

/-- Models JavaScript `String(n)` for a natural number `n`. -/
def natDigits (n : Nat) : List Char :=
  if n = 0 then ['0'] else natDigitsAux n n

/-- Models JavaScript `s.padStart(6, '0')`. -/
def padStart6 (l : List Char) : List Char :=
  List.replicate (6 - l.length) '0' ++ l

/-- The stamped identifier `` `${roomId}::${String(seq).padStart(6, '0')}` ``. -/
def mkOpID (roomId : List Char) (seq : Nat) : List Char :=
  roomId ++ ':' :: ':' :: padStart6 (natDigits seq)

/-- Decimal reading of a digit string; inverse of `padStart6 ∘ natDigits`,
used to prove that minted identifiers never collide. -/
def parseNat (l : List Char) : Nat :=
  l.foldl (fun a c => a * 10 + (c.toNat - 48)) 0

/-! ## Operations -/

/-- The `payload` field of a raw op as it arrives from a client.  The core
only ever reads `payload.targetOpID`; all other stroke data (points, color,
width, tool, tempClientId) is opaque to it and carried in the second
component. -/
inductive RawPayload : Type where
  /-- Absent `payload` (`undefined`). -/
  | undef : RawPayload
  /-- Payload satisfying `payload === null`. -/
  | null : RawPayload
  /-- Payload that is an object (always truthy); the first component is its
  (possibly absent) `targetOpID` property and the second the remaining,
  uninterpreted properties. -/
  | obj : Option (List Char) → String → RawPayload
deriving DecidableEq, Repr

/-- A raw op from the wire; the core reads only `type` and `payload` (the
gateway reads `roomId`, which is passed separately to `appendOp`). -/
structure RawOp where
  type : String
  payload : RawPayload
deriving DecidableEq, Repr

/-- The `payload` of a stamped op as stored in the log.  `rawSelf ty` is the
case where the raw op had an absent `payload`, so the code stores the raw op
object itself (an object with a `type` property and no `targetOpID`). -/
inductive StoredPayload : Type where
  | null : StoredPayload
  | obj : Option (List Char) → String → StoredPayload
  | rawSelf : String → StoredPayload
deriving DecidableEq, Repr

/-- Models `opRaw.payload || opRaw.payload === null ? opRaw.payload : opRaw`:
an object or `null` payload is stored as is; an absent payload makes the code
store the whole raw op. -/
def stampPayload (raw : RawOp) : StoredPayload :=
  match raw.payload with
  | .undef => .rawSelf raw.type
  | .null => .null
  | .obj t d => .obj t d

/-- Models the truthiness test `stamped.payload && stamped.payload.targetOpID`:
`none` when the payload is `null`, the raw op, or an object without the
property, and also when the property is the empty (falsy) string. -/
def targetOf : StoredPayload → Option (List Char)
  | .obj (some t) _ => if t = [] then none else some t
  | _ => none

/-- A stamped operation, the element type of a room's log. -/
structure Op where
  seq : Nat
  opID : List Char
  clientId : String
  type : String
  payload : StoredPayload
  timestamp : Nat
  active : Bool
deriving DecidableEq, Repr

/-- Forgets the `active` flag (sets it to a fixed value): two ops related by
`clearActive o = clearActive o'` agree on every field except possibly
`active`. -/
def clearActive (o : Op) : Op :=
  { o with active := true }

/-! ## Room and manager state -/

/-- Values of `room.clients`: `{ clientId, username, color }`. -/
structure ClientInfo where
  clientId : String
  username : String
  color : String
deriving DecidableEq, Repr

/-- One room: `{ clients, ops, seq, opMap }`.  `opMap` maps an `opID` to the
position of its op in `ops` (see the module comment on aliasing). -/
structure RoomState where
  clients : List (String × ClientInfo)
  ops : List Op
  seq : Nat
  opMap : List (List Char × Nat)
deriving DecidableEq, Repr

/-- A fresh room as created by `_ensure`. -/
def emptyRoom : RoomState := ⟨[], [], 0, []⟩

/-- State of `this.rooms`, the whole `RoomManager`. -/
structure ManagerState where
  rooms : List (List Char × RoomState)
deriving DecidableEq, Repr

/-- A fresh `RoomManager`. -/
def initialState : ManagerState := ⟨[]⟩

/-- Models `_ensure(roomId)`. -/
def ensureRoom (roomId : List Char) (st : ManagerState) : ManagerState :=
  if (mapGet roomId st.rooms).isSome then st
  else ⟨mapSet roomId emptyRoom st.rooms⟩

/-- Reads `this.rooms.get(roomId)`; the API functions below only use it right
after `_ensure(roomId)`, so the default is never actually produced. -/
def roomOf (roomId : List Char) (st : ManagerState) : RoomState :=
  (mapGet roomId st.rooms).getD emptyRoom

/-- Writes the (in JavaScript, in-place mutated) room object back. -/
def putRoom (roomId : List Char) (room : RoomState) (st : ManagerState) : ManagerState :=
  ⟨mapSet roomId room st.rooms⟩

/-! ## Mutation helpers used by the undo/redo branches -/

/-- Sets `target.active = b` on the op at position `i` of the log (the
JavaScript mutation through the alias obtained from `opMap` or from the
backward scan). -/
def setActive : List Op → Nat → Bool → List Op
  | [], _, _ => []
  | o :: rest, 0, b => { o with active := b } :: rest
  | o :: rest, i + 1, b => o :: setActive rest i b

/-- The backward scan `for (let i = room.ops.length - 1; i >= 0; i--)` with
`if (o.type === 'stroke' && o.active)`: position and value of the *last*
active stroke, if any. -/
def lastActiveStroke : List Op → Option (Nat × Op)
  | [] => none
  | o :: rest =>
    match lastActiveStroke rest with
    | some (i, o') => some (i + 1, o')
    | none => if o.type = "stroke" ∧ o.active = true then some (0, o) else none

/-! ## The body of `appendOp` -/

/-- The freshly stamped op object built at the top of `appendOp`, before the
undo/redo interpretation. -/
def mkStamped (roomId : List Char) (opRaw : RawOp) (socketId : String) (now : Nat)
    (seq : Nat) : Op :=
  { seq := seq, opID := mkOpID roomId seq, clientId := socketId, type := opRaw.type
    payload := stampPayload opRaw, timestamp := now, active := true }

/-- The `if/else if` chain of `appendOp` interpreting undo/redo: returns the
(possibly payload-rewritten) stamped op together with the (possibly mutated)
log.  An `undo` with a truthy `targetOpID` deactivates the op the room's
`opMap` holds under that id, if any; an `undo` without one scans backward for
the last active stroke, deactivates it and rewrites the outgoing payload to
`{ targetOpID: o.opID }`; a `redo` re-activates a truthy explicit target if
present; every other type (including `stroke` and `presence`) changes
nothing. -/
def interpretOp (stamped : Op) (room : RoomState) : Op × List Op :=
  if stamped.type = "undo" then
    match targetOf stamped.payload with
    | some t =>
      match mapGet t room.opMap with
      | some i => (stamped, setActive room.ops i false)
      | none => (stamped, room.ops)
    | none =>
      match lastActiveStroke room.ops with
      | some (i, o) =>
        ({ stamped with payload := .obj (some o.opID) "" }, setActive room.ops i false)
      | none => (stamped, room.ops)
  else if stamped.type = "redo" then
    match targetOf stamped.payload with
    | some t =>
      match mapGet t room.opMap with
      | some i => (stamped, setActive room.ops i true)
      | none => (stamped, room.ops)
    | none => (stamped, room.ops)
  else (stamped, room.ops)

/-- Action of `appendOp` on the room object: increment `seq`, stamp, interpret
undo/redo, push into `ops`, record in `opMap`, return the stamped op. -/
def appendOpRoom (roomId : List Char) (opRaw : RawOp) (socketId : String) (now : Nat)
    (room : RoomState) : Op × RoomState :=
  let step := interpretOp (mkStamped roomId opRaw socketId now (room.seq + 1)) room
  (step.1,
   { room with
       ops := step.2 ++ [step.1]
       seq := room.seq + 1
       opMap := mapSet step.1.opID step.2.length room.opMap })

/-- Models `appendOp(roomId, opRaw, socketId)`. -/
def appendOp (roomId : List Char) (opRaw : RawOp) (socketId : String) (now : Nat)
    (st : ManagerState) : Op × ManagerState :=
  let st1 := ensureRoom roomId st
  let r := appendOpRoom roomId opRaw socketId now (roomOf roomId st1)
  (r.1, putRoom roomId r.2 st1)

/-! ## The remaining `RoomManager` API -/

/-- Models `addClient(roomId, socketId, username, color)` (the defaults
`'Anon'`, `'#000'` are values the gateway may pass; they need no special
treatment here). -/
def addClient (roomId : List Char) (socketId username color : String)
    (st : ManagerState) : ClientInfo × ManagerState :=
  let st1 := ensureRoom roomId st
  let room := roomOf roomId st1
  let info : ClientInfo := ⟨socketId, username, color⟩
  (info, putRoom roomId { room with clients := mapSet socketId info room.clients } st1)

/-- The loop of `removeClientBySocket`: walk `this.rooms.entries()` in order,
`delete` the socket from each room's `clients`, collect the ids of the rooms
that contained it. -/
def removeClientRooms (socketId : String) :
    List (List Char × RoomState) → List (List Char) × List (List Char × RoomState)
  | [] => ([], [])
  | (r, room) :: rest =>
    let d := mapDelete socketId room.clients
    let tail := removeClientRooms socketId rest
    ((if d.1 then r :: tail.1 else tail.1), (r, { room with clients := d.2 }) :: tail.2)

/-- Models `removeClientBySocket(socketId)`: returns the list of room ids the
client was removed from, in room-map iteration order. -/
def removeClientBySocket (socketId : String) (st : ManagerState) :
    List (List Char) × ManagerState :=
  let r := removeClientRooms socketId st.rooms
  (r.1, ⟨r.2⟩)

/-- Models `getClients(roomId)`: values of the room's `clients` map in
insertion order (`_ensure` runs first, so the call can create the room). -/
def getClients (roomId : List Char) (st : ManagerState) :
    List ClientInfo × ManagerState :=
  let st1 := ensureRoom roomId st
  (((roomOf roomId st1).clients).map Prod.snd, st1)

/-- Models `getHistory(roomId, limit)`:
`room.ops.slice(Math.max(0, room.ops.length - limit))`.  With `Nat` truncated
subtraction, `List.drop (len - limit)` is exactly `slice(max(0, len - limit))`. -/
def getHistory (roomId : List Char) (limit : Nat) (st : ManagerState) :
    List Op × ManagerState :=
  let st1 := ensureRoom roomId st
  let ops := (roomOf roomId st1).ops
  (ops.drop (ops.length - limit), st1)

/-- Convenience: `getHistory` exactly as the gateway calls it
(`rooms.getHistory(roomId)`), with the default `limit = 500`. -/
def getHistoryDefault (roomId : List Char) (st : ManagerState) :
    List Op × ManagerState :=
  getHistory roomId 500 st

/-! ## Reachable manager states

Every state the server can be in arises from the fresh manager by the calls
the gateway in `server/index.js` makes: `addClient`/`getClients`/`getHistory`
(the `join_room` handler), `appendOp` (an `op` message of any shape a client
may send), `removeClientBySocket` (disconnect).  The `cursor` handler forwards
the event to the other members and never touches the manager. -/

inductive Reachable : ManagerState → Prop where
  | init : Reachable initialState
  | addClient {st} (roomId : List Char) (socketId username color : String) :
      Reachable st → Reachable (addClient roomId socketId username color st).2
  | removeClient {st} (socketId : String) :
      Reachable st → Reachable (removeClientBySocket socketId st).2
  | getClients {st} (roomId : List Char) :
      Reachable st → Reachable (getClients roomId st).2
  | getHistory {st} (roomId : List Char) (limit : Nat) :
      Reachable st → Reachable (getHistory roomId limit st).2
  | appendOp {st} (roomId : List Char) (opRaw : RawOp) (socketId : String) (now : Nat) :
      Reachable st → Reachable (appendOp roomId opRaw socketId now st).2

/-! ## Invariants tied to reachability -/

/-- Keys of an association-list map are pairwise distinct (true of every
JavaScript `Map`, and of every map our API builds). -/
def KeysNodup {κ α : Type} (l : List (κ × α)) : Prop :=
  (l.map Prod.fst).Nodup

/-- Structural invariant of one room named `r`: the counter equals the log
length, the stored `seq`s are exactly `1..len` in order, `opID`s are the
minted identifiers of those `seq`s, `opMap` holds exactly the minted id of
each position, and the client map has distinct keys. -/
def RoomInv (r : List Char) (room : RoomState) : Prop :=
  room.seq = room.ops.length ∧
  room.ops.map Op.seq = List.range' 1 room.ops.length ∧
  room.ops.map Op.opID = (List.range' 1 room.ops.length).map (mkOpID r) ∧
  room.opMap = (List.range room.ops.length).map (fun i => (mkOpID r (i + 1), i)) ∧
  KeysNodup room.clients

/-- Structural invariant of the whole manager. -/
def StateInv (st : ManagerState) : Prop :=
  ∀ p ∈ st.rooms, RoomInv p.1 p.2

/-! ## Concrete scenario states (used by witnesses and counterexamples) -/

/-- A client stroke op as `main.js` sends it (payload object without
`targetOpID`; points/color/width/tool are opaque). -/
def strokeRaw : RawOp := ⟨"stroke", .obj none "points"⟩

/-- The op `requestUndo` in `main.js` sends: `{ type: 'undo', payload: {} }`. -/
def undoNoTargetRaw : RawOp := ⟨"undo", .obj none ""⟩

/-- Room `r` after one stroke by alice. -/
def exA1 : ManagerState := (appendOp ['r'] strokeRaw "alice" 10 initialState).2

/-- Room `r` after strokes S1 (alice) and S2 (bob), both active. -/
def exA2 : ManagerState := (appendOp ['r'] strokeRaw "bob" 11 exA1).2

/-- Room `r` after S1, S2 and one no-target undo (which deactivates S2). -/
def exA3 : ManagerState := (appendOp ['r'] undoNoTargetRaw "alice" 12 exA2).2

/-- Room `q` after a no-target undo on an empty room: the stored undo op has
no resolved target. -/
def exB1 : ManagerState := (appendOp ['q'] undoNoTargetRaw "alice" 0 initialState).2

/-- Room `q` after a second undo whose explicit target is the *first undo's*
own opID: the code deactivates the stored undo op. -/
def exB2 : ManagerState :=
  (appendOp ['q'] ⟨"undo", .obj (some (mkOpID ['q'] 1)) ""⟩ "alice" 1 exB1).2

/-- Result of a `presence`-typed op pushed through `appendOp` on a fresh
manager. -/
def exPresence : Op × ManagerState :=
  appendOp ['r'] ⟨"presence", .obj none ""⟩ "dave" 0 initialState

/-- Manager with socket `s1` in rooms `r` and `w`, and `s2` in `w`. -/
def exMembers : ManagerState :=
  (addClient ['w'] "s2" "carol" "#0f0"
    (addClient ['w'] "s1" "bob" "#00f"
      (addClient ['r'] "s1" "bob" "#00f" initialState).2).2).2

end Canvas

/-! ## Lemmas about the map model -/

namespace Canvas

theorem mapGet_mapSet_self {κ α : Type} [DecidableEq κ] (k : κ) (v : α)
    (l : List (κ × α)) : mapGet k (mapSet k v l) = some v := by
  induction l with
  | nil => simp [mapGet, mapSet]
  | cons p rest ih =>
    obtain ⟨k', v'⟩ := p
    by_cases h : k' = k <;> simp [mapGet, mapSet, h, ih]

theorem mapGet_mapSet_ne {κ α : Type} [DecidableEq κ] {k k'' : κ} (v : α)
    (l : List (κ × α)) (h : k'' ≠ k) :
    mapGet k'' (mapSet k v l) = mapGet k'' l := by
  induction l with
  | nil => simp [mapGet, mapSet, Ne.symm h]
  | cons p rest ih =>
    obtain ⟨k', v'⟩ := p
    by_cases hk : k' = k
    · subst hk
      simp [mapGet, mapSet, Ne.symm h]
    · by_cases hk' : k' = k''
      · subst hk'
        simp [mapGet, mapSet, hk]
      · simp [mapGet, mapSet, hk, hk', ih]

theorem mem_mapSet {κ α : Type} [DecidableEq κ] {k : κ} {v : α}
    {l : List (κ × α)} {p : κ × α} :
    p ∈ mapSet k v l → p = (k, v) ∨ p ∈ l := by
  induction l with
  | nil =>
    intro h
    simpa [mapSet] using h
  | cons q rest ih =>
    obtain ⟨k', v'⟩ := q
    intro h
    by_cases hk : k' = k
    · subst hk
      simp only [mapSet, if_pos, List.mem_cons] at h
      rcases h with h | h
      · exact Or.inl h
      · exact Or.inr (List.mem_cons_of_mem _ h)
    · simp only [mapSet, if_neg hk, List.mem_cons] at h
      rcases h with h | h
      · exact Or.inr (h ▸ List.mem_cons_self _ _)
      · rcases ih h with h' | h'
        · exact Or.inl h'
        · exact Or.inr (List.mem_cons_of_mem _ h')

theorem mapGet_eq_none_iff {κ α : Type} [DecidableEq κ] {k : κ}
    {l : List (κ × α)} : mapGet k l = none ↔ ∀ p ∈ l, p.1 ≠ k := by
  induction l with
  | nil => simp [mapGet]
  | cons q rest ih =>
    obtain ⟨k', v'⟩ := q
    by_cases hk : k' = k <;> simp [mapGet, hk, ih]

theorem mapGet_some_mem {κ α : Type} [DecidableEq κ] {k : κ} {v : α}
    {l : List (κ × α)} : mapGet k l = some v → (k, v) ∈ l := by
  induction l with
  | nil =>
    intro h
    simp [mapGet] at h
  | cons q rest ih =>
    obtain ⟨k', v'⟩ := q
    intro h
    by_cases hk : k' = k
    · subst hk
      simp [mapGet] at h
      subst h
      exact List.mem_cons_self _ _
    · simp only [mapGet, if_neg hk] at h
      exact List.mem_cons_of_mem _ (ih h)

theorem mapSet_of_get_none {κ α : Type} [DecidableEq κ] {k : κ} (v : α)
    {l : List (κ × α)} : mapGet k l = none → mapSet k v l = l ++ [(k, v)] := by
  induction l with
  | nil =>
    intro h
    simp [mapSet]
  | cons q rest ih =>
    obtain ⟨k', v'⟩ := q
    intro h
    by_cases hk : k' = k
    · simp [mapGet, hk] at h
    · simp only [mapGet, if_neg hk] at h
      simp [mapSet, hk, ih h]

theorem map_fst_mapSet_of_get_isSome {κ α : Type} [DecidableEq κ] {k : κ} (v : α)
    {l : List (κ × α)} : (mapGet k l).isSome →
    (mapSet k v l).map Prod.fst = l.map Prod.fst := by
  induction l with
  | nil =>
    intro h
    simp [mapGet] at h
  | cons q rest ih =>
    obtain ⟨k', v'⟩ := q
    intro h
    by_cases hk : k' = k
    · simp [mapSet, hk]
    · simp only [mapGet, if_neg hk] at h
      simp [mapSet, hk, ih h]

theorem keysNodup_mapSet {κ α : Type} [DecidableEq κ] (k : κ) (v : α)
    {l : List (κ × α)} (h : KeysNodup l) : KeysNodup (mapSet k v l) := by
  unfold KeysNodup at *
  rcases ho : mapGet k l with _ | w
  · rw [mapSet_of_get_none v ho]
    have hk : k ∉ l.map Prod.fst := by
      rw [List.mem_map]
      rintro ⟨p, hp, hpk⟩
      exact mapGet_eq_none_iff.mp ho p hp hpk
    simp [List.nodup_append, h, hk]
  · rw [map_fst_mapSet_of_get_isSome v (by simp [ho])]
    exact h

theorem mapDelete_fst {κ α : Type} [DecidableEq κ] (k : κ) (l : List (κ × α)) :
    (mapDelete k l).1 = (mapGet k l).isSome := by
  induction l with
  | nil => simp [mapDelete, mapGet]
  | cons q rest ih =>
    obtain ⟨k', v'⟩ := q
    by_cases hk : k' = k <;> simp [mapDelete, mapGet, hk, ih]

theorem mapDelete_of_get_none {κ α : Type} [DecidableEq κ] {k : κ}
    {l : List (κ × α)} : mapGet k l = none → mapDelete k l = (false, l) := by
  induction l with
  | nil =>
    intro h
    simp [mapDelete]
  | cons q rest ih =>
    obtain ⟨k', v'⟩ := q
    intro h
    by_cases hk : k' = k
    · simp [mapGet, hk] at h
    · simp only [mapGet, if_neg hk] at h
      simp [mapDelete, hk, ih h]

theorem mapDelete_snd_sublist {κ α : Type} [DecidableEq κ] (k : κ)
    (l : List (κ × α)) : (mapDelete k l).2.Sublist l := by
  induction l with
  | nil => simp [mapDelete]
  | cons q rest ih =>
    obtain ⟨k', v'⟩ := q
    by_cases hk : k' = k
    · simp only [mapDelete, if_pos hk]
      exact (List.sublist_cons_self _ _)
    · simp only [mapDelete, if_neg hk]
      exact ih.cons₂ _

theorem keysNodup_mapDelete {κ α : Type} [DecidableEq κ] (k : κ)
    {l : List (κ × α)} (h : KeysNodup l) : KeysNodup (mapDelete k l).2 :=
  List.Nodup.sublist (List.Sublist.map Prod.fst (mapDelete_snd_sublist k l)) h

theorem mapGet_mapDelete_self {κ α : Type} [DecidableEq κ] (k : κ)
    {l : List (κ × α)} : KeysNodup l → mapGet k (mapDelete k l).2 = none := by
  induction l with
  | nil =>
    intro h
    simp [mapDelete, mapGet]
  | cons q rest ih =>
    obtain ⟨k', v'⟩ := q
    intro h
    unfold KeysNodup at h
    simp only [List.map_cons, List.nodup_cons] at h
    by_cases hk : k' = k
    · subst hk
      simp only [mapDelete, if_pos rfl]
      rw [mapGet_eq_none_iff]
      intro p hp hpk
      exact h.1 (hpk ▸ List.mem_map_of_mem Prod.fst hp)
    · simp only [mapDelete, if_neg hk]
      simp [mapGet, hk, ih h.2]

end Canvas

/-! ## Lemmas about minted identifiers -/

namespace Canvas

theorem digitChar_ne_colon (d : Nat) : digitChar d ≠ ':' := by
  unfold digitChar
  split <;> decide

theorem digitChar_toNat {d : Nat} (h : d < 10) : (digitChar d).toNat = 48 + d := by
  interval_cases d <;> decide

theorem mem_natDigitsAux_ne_colon :
    ∀ fuel n, ∀ c ∈ natDigitsAux fuel n, c ≠ ':' := by
  intro fuel
  induction fuel with
  | zero => simp [natDigitsAux]
  | succ fuel ih =>
    intro n c hc
    by_cases hn : n = 0
    · simp [natDigitsAux, hn] at hc
    · simp only [natDigitsAux, if_neg hn, List.mem_append, List.mem_singleton] at hc
      rcases hc with hc | hc
      · exact ih _ c hc
      · exact hc ▸ digitChar_ne_colon _


theorem mem_padStart6_natDigits_ne_colon (n : Nat) :
    ∀ c ∈ padStart6 (natDigits n), c ≠ ':' := by
  intro c hc
  unfold padStart6 at hc
  rw [List.mem_append] at hc
  rcases hc with hc | hc
  · rw [List.eq_of_mem_replicate hc]
    decide
  · unfold natDigits at hc
    by_cases hn : n = 0
    · simp [hn] at hc
      rw [hc]
      decide
    · rw [if_neg hn] at hc
      exact mem_natDigitsAux_ne_colon n n c hc

theorem parseNat_append_singleton (l : List Char) (c : Char) :
    parseNat (l ++ [c]) = parseNat l * 10 + (c.toNat - 48) := by
  simp [parseNat, List.foldl_append]

theorem parseNat_replicate_zero (k : Nat) (l : List Char) :
    parseNat (List.replicate k '0' ++ l) = parseNat l := by
  induction k with
  | zero => simp
  | succ k ih =>
    rw [List.replicate_succ, List.cons_append]
    unfold parseNat
    rw [List.foldl_cons]
    have h0 : 0 * 10 + ('0'.toNat - 48) = 0 := by decide
    rw [h0]
    exact ih

theorem parseNat_natDigitsAux :
    ∀ fuel n, n ≤ fuel → parseNat (natDigitsAux fuel n) = n := by
  intro fuel
  induction fuel with
  | zero =>
    intro n hn
    interval_cases n
    simp [natDigitsAux, parseNat]
  | succ fuel ih =>
    intro n hn
    by_cases hz : n = 0
    · simp [natDigitsAux, hz, parseNat]
    · have hdiv : n / 10 ≤ fuel := by
        have := Nat.div_lt_self (Nat.pos_of_ne_zero hz) (by norm_num : 1 < 10)
        omega
      rw [natDigitsAux, if_neg hz, parseNat_append_singleton, ih _ hdiv,
        digitChar_toNat (Nat.mod_lt n (by norm_num))]
      omega

theorem parseNat_padStart6_natDigits (n : Nat) :
    parseNat (padStart6 (natDigits n)) = n := by
  unfold padStart6
  rw [parseNat_replicate_zero]
  unfold natDigits
  by_cases hz : n = 0
  · simp [hz, parseNat]
  · rw [if_neg hz]
    exact parseNat_natDigitsAux n n le_rfl

theorem padStart6_natDigits_inj {m n : Nat}
    (h : padStart6 (natDigits m) = padStart6 (natDigits n)) : m = n := by
  rw [← parseNat_padStart6_natDigits m, h, parseNat_padStart6_natDigits]

theorem append_sep_inj :
    ∀ (a b d₁ d₂ : List Char), (∀ c ∈ d₁, c ≠ ':') → (∀ c ∈ d₂, c ≠ ':') →
      a ++ ':' :: ':' :: d₁ = b ++ ':' :: ':' :: d₂ → a = b ∧ d₁ = d₂ := by
  intro a
  induction a with
  | nil =>
    intro b d₁ d₂ h₁ h₂ h
    cases b with
    | nil => simpa using h
    | cons y bs =>
      exfalso
      simp only [List.nil_append, List.cons_append, List.cons.injEq] at h
      obtain ⟨hy, h⟩ := h
      cases bs with
      | nil =>
        simp only [List.nil_append, List.cons.injEq] at h
        exact h₁ ':' (h.2 ▸ List.mem_cons_self ':' d₂) rfl
      | cons z bs' =>
        simp only [List.cons_append, List.cons.injEq] at h
        exact h₁ ':' (h.2 ▸ List.mem_append_right bs' (List.mem_cons_self ':' _)) rfl
  | cons x as ih =>
    intro b d₁ d₂ h₁ h₂ h
    cases b with
    | nil =>
      exfalso
      simp only [List.cons_append, List.nil_append, List.cons.injEq] at h
      obtain ⟨hx, h⟩ := h
      cases as with
      | nil =>
        simp only [List.nil_append, List.cons.injEq] at h
        exact h₂ ':' (h.2 ▸ List.mem_cons_self ':' d₁) rfl
      | cons z as' =>
        simp only [List.cons_append, List.cons.injEq] at h
        exact h₂ ':' (h.2 ▸ List.mem_append_right as' (List.mem_cons_self ':' _)) rfl
    | cons y bs =>
      simp only [List.cons_append, List.cons.injEq] at h
      obtain ⟨hxy, h⟩ := h
      obtain ⟨hab, hd⟩ := ih bs d₁ d₂ h₁ h₂ h
      exact ⟨by rw [hxy, hab], hd⟩

theorem mkOpID_inj {r₁ r₂ : List Char} {m n : Nat}
    (h : mkOpID r₁ m = mkOpID r₂ n) : r₁ = r₂ ∧ m = n := by
  unfold mkOpID at h
  obtain ⟨hr, hd⟩ := append_sep_inj r₁ r₂ _ _
    (mem_padStart6_natDigits_ne_colon m) (mem_padStart6_natDigits_ne_colon n) h
  exact ⟨hr, padStart6_natDigits_inj hd⟩

theorem mkOpID_seq_inj {r : List Char} {m n : Nat}
    (h : mkOpID r m = mkOpID r n) : m = n :=
  (mkOpID_inj h).2

theorem mkOpID_ne_of_room_ne {r₁ r₂ : List Char} (h : r₁ ≠ r₂) (m n : Nat) :
    mkOpID r₁ m ≠ mkOpID r₂ n :=
  fun he => h (mkOpID_inj he).1


/-! ## Lemmas about the mutation helpers -/

theorem setActive_length (b : Bool) :
    ∀ (ops : List Op) (i : Nat), (setActive ops i b).length = ops.length
  | [], _ => rfl
  | _ :: _, 0 => rfl
  | o :: rest, i + 1 => by simp [setActive, setActive_length b rest i]

theorem setActive_getElem? (b : Bool) :
    ∀ (ops : List Op) (i j : Nat),
      (setActive ops i b)[j]? =
        if i = j then ops[j]?.map (fun o => { o with active := b }) else ops[j]?
  | [], i, j => by simp [setActive]
  | o :: rest, 0, 0 => by simp [setActive]
  | o :: rest, 0, j + 1 => by simp [setActive]
  | o :: rest, i + 1, 0 => by simp [setActive]
  | o :: rest, i + 1, j + 1 => by
    simp [setActive, setActive_getElem? b rest i j]

theorem setActive_map_seq (b : Bool) :
    ∀ (ops : List Op) (i : Nat), (setActive ops i b).map Op.seq = ops.map Op.seq
  | [], _ => rfl
  | o :: rest, 0 => rfl
  | o :: rest, i + 1 => by simp [setActive, setActive_map_seq b rest i]

theorem setActive_map_opID (b : Bool) :
    ∀ (ops : List Op) (i : Nat), (setActive ops i b).map Op.opID = ops.map Op.opID
  | [], _ => rfl
  | o :: rest, 0 => rfl
  | o :: rest, i + 1 => by simp [setActive, setActive_map_opID b rest i]

theorem setActive_getElem?_clearActive (b : Bool) (ops : List Op) (i j : Nat) :
    ((setActive ops i b)[j]?).map clearActive = (ops[j]?).map clearActive := by
  rw [setActive_getElem?]
  by_cases h : i = j
  · rw [if_pos h]
    cases ops[j]? <;> simp [clearActive]
  · rw [if_neg h]

theorem lastActiveStroke_none :
    ∀ {ops : List Op}, lastActiveStroke ops = none →
      ∀ o ∈ ops, ¬(o.type = "stroke" ∧ o.active = true)
  | [] => by simp
  | o₀ :: rest => by
    intro h o hmem
    rw [lastActiveStroke] at h
    cases hr : lastActiveStroke rest with
    | some p => rw [hr] at h; cases h
    | none =>
      rw [hr] at h
      by_cases hc : o₀.type = "stroke" ∧ o₀.active = true
      · rw [if_pos hc] at h; cases h
      · rcases List.mem_cons.mp hmem with rfl | hmem'
        · exact hc
        · exact lastActiveStroke_none hr o hmem'

theorem lastActiveStroke_none_of_forall :
    ∀ {ops : List Op}, (∀ o ∈ ops, ¬(o.type = "stroke" ∧ o.active = true)) →
      lastActiveStroke ops = none
  | [] => fun _ => rfl
  | o₀ :: rest => by
    intro h
    rw [lastActiveStroke]
    rw [lastActiveStroke_none_of_forall (fun o ho => h o (List.mem_cons_of_mem _ ho))]
    rw [if_neg (h o₀ (List.mem_cons_self _ _))]

theorem lastActiveStroke_eq_none_iff (ops : List Op) :
    lastActiveStroke ops = none ↔ ∀ o ∈ ops, ¬(o.type = "stroke" ∧ o.active = true) :=
  ⟨lastActiveStroke_none, lastActiveStroke_none_of_forall⟩

theorem lastActiveStroke_some {ops : List Op} :
    ∀ {i : Nat} {o : Op}, lastActiveStroke ops = some (i, o) →
      ops[i]? = some o ∧ (o.type = "stroke" ∧ o.active = true) ∧
        ∀ j, i < j → ∀ o', ops[j]? = some o' → ¬(o'.type = "stroke" ∧ o'.active = true) := by
  induction ops with
  | nil =>
    intro i o h
    cases h
  | cons o₀ rest ih =>
    intro i o h
    rw [lastActiveStroke] at h
    cases hr : lastActiveStroke rest with
    | some p =>
      rw [hr] at h
      obtain ⟨i', o'⟩ := p
      obtain ⟨rfl, rfl⟩ : i' + 1 = i ∧ o' = o := by
        injection h with h1
        injection h1 with h2 h3
        exact ⟨h2, h3⟩
      obtain ⟨hg, hp, hlast⟩ := ih hr
      refine ⟨by simpa using hg, hp, ?_⟩
      intro j hj o'' hg''
      obtain ⟨j', rfl⟩ : ∃ j', j = j' + 1 := ⟨j - 1, by omega⟩
      rw [List.getElem?_cons_succ] at hg''
      exact hlast j' (by omega) o'' hg''
    | none =>
      rw [hr] at h
      by_cases hc : o₀.type = "stroke" ∧ o₀.active = true
      · rw [if_pos hc] at h
        obtain ⟨rfl, rfl⟩ : 0 = i ∧ o₀ = o := by
          injection h with h1
          injection h1 with h2 h3
          exact ⟨h2, h3⟩
        refine ⟨List.getElem?_cons_zero, hc, ?_⟩
        intro j hj o'' hg''
        obtain ⟨j', rfl⟩ : ∃ j', j = j' + 1 := ⟨j - 1, by omega⟩
        rw [List.getElem?_cons_succ] at hg''
        exact lastActiveStroke_none hr o'' (List.getElem?_mem hg'')
      · rw [if_neg hc] at h
        cases h


/-! ## Case lemmas for the undo/redo interpretation -/

theorem interpretOp_undo_found {s : Op} {room : RoomState} {t : List Char} {i : Nat}
    (hty : s.type = "undo") (ht : targetOf s.payload = some t)
    (hm : mapGet t room.opMap = some i) :
    interpretOp s room = (s, setActive room.ops i false) := by
  simp [interpretOp, hty, ht, hm]

theorem interpretOp_undo_missing {s : Op} {room : RoomState} {t : List Char}
    (hty : s.type = "undo") (ht : targetOf s.payload = some t)
    (hm : mapGet t room.opMap = none) :
    interpretOp s room = (s, room.ops) := by
  simp [interpretOp, hty, ht, hm]

theorem interpretOp_undo_scan_found {s : Op} {room : RoomState} {i : Nat} {o : Op}
    (hty : s.type = "undo") (ht : targetOf s.payload = none)
    (hl : lastActiveStroke room.ops = some (i, o)) :
    interpretOp s room =
      ({ s with payload := .obj (some o.opID) "" }, setActive room.ops i false) := by
  simp [interpretOp, hty, ht, hl]

theorem interpretOp_undo_scan_none {s : Op} {room : RoomState}
    (hty : s.type = "undo") (ht : targetOf s.payload = none)
    (hl : lastActiveStroke room.ops = none) :
    interpretOp s room = (s, room.ops) := by
  simp [interpretOp, hty, ht, hl]

theorem interpretOp_redo_found {s : Op} {room : RoomState} {t : List Char} {i : Nat}
    (hty : s.type = "redo") (ht : targetOf s.payload = some t)
    (hm : mapGet t room.opMap = some i) :
    interpretOp s room = (s, setActive room.ops i true) := by
  have hne : ¬s.type = "undo" := by rw [hty]; decide
  simp [interpretOp, hne, hty, ht, hm]

theorem interpretOp_redo_missing {s : Op} {room : RoomState} {t : List Char}
    (hty : s.type = "redo") (ht : targetOf s.payload = some t)
    (hm : mapGet t room.opMap = none) :
    interpretOp s room = (s, room.ops) := by
  have hne : ¬s.type = "undo" := by rw [hty]; decide
  simp [interpretOp, hne, hty, ht, hm]

theorem interpretOp_redo_none {s : Op} {room : RoomState}
    (hty : s.type = "redo") (ht : targetOf s.payload = none) :
    interpretOp s room = (s, room.ops) := by
  have hne : ¬s.type = "undo" := by rw [hty]; decide
  simp [interpretOp, hne, hty, ht]

theorem interpretOp_other {s : Op} {room : RoomState}
    (h₁ : ¬s.type = "undo") (h₂ : ¬s.type = "redo") :
    interpretOp s room = (s, room.ops) := by
  simp [interpretOp, h₁, h₂]

/-- The interpretation step returns the stamped op unchanged, except that the
no-target undo branch may rewrite its payload to the resolved target. -/
theorem interpretOp_fst (s : Op) (room : RoomState) :
    (interpretOp s room).1 = s ∨
      ∃ tid, (interpretOp s room).1 = { s with payload := .obj (some tid) "" } := by
  by_cases h₁ : s.type = "undo"
  · cases ht : targetOf s.payload with
    | some t =>
      cases hm : mapGet t room.opMap with
      | some i => rw [interpretOp_undo_found h₁ ht hm]; exact Or.inl rfl
      | none => rw [interpretOp_undo_missing h₁ ht hm]; exact Or.inl rfl
    | none =>
      cases hl : lastActiveStroke room.ops with
      | some p =>
        rw [interpretOp_undo_scan_found h₁ ht hl]
        exact Or.inr ⟨p.2.opID, rfl⟩
      | none => rw [interpretOp_undo_scan_none h₁ ht hl]; exact Or.inl rfl
  · by_cases h₂ : s.type = "redo"
    · cases ht : targetOf s.payload with
      | some t =>
        cases hm : mapGet t room.opMap with
        | some i => rw [interpretOp_redo_found h₂ ht hm]; exact Or.inl rfl
        | none => rw [interpretOp_redo_missing h₂ ht hm]; exact Or.inl rfl
      | none => rw [interpretOp_redo_none h₂ ht]; exact Or.inl rfl
    · rw [interpretOp_other h₁ h₂]; exact Or.inl rfl

/-- All fields of the stamped op except `payload` survive the interpretation
step unchanged. -/
theorem interpretOp_fst_fields (s : Op) (room : RoomState) :
    (interpretOp s room).1.seq = s.seq ∧ (interpretOp s room).1.opID = s.opID ∧
      (interpretOp s room).1.clientId = s.clientId ∧
      (interpretOp s room).1.type = s.type ∧
      (interpretOp s room).1.timestamp = s.timestamp ∧
      (interpretOp s room).1.active = s.active := by
  rcases interpretOp_fst s room with h | ⟨tid, h⟩ <;>
    rw [h] <;> exact ⟨rfl, rfl, rfl, rfl, rfl, rfl⟩

/-- The interpretation step either leaves the log alone or toggles the
`active` flag of a single position. -/
theorem interpretOp_snd (s : Op) (room : RoomState) :
    (interpretOp s room).2 = room.ops ∨
      ∃ i b, (interpretOp s room).2 = setActive room.ops i b := by
  by_cases h₁ : s.type = "undo"
  · cases ht : targetOf s.payload with
    | some t =>
      cases hm : mapGet t room.opMap with
      | some i =>
        rw [interpretOp_undo_found h₁ ht hm]
        exact Or.inr ⟨i, false, rfl⟩
      | none => rw [interpretOp_undo_missing h₁ ht hm]; exact Or.inl rfl
    | none =>
      cases hl : lastActiveStroke room.ops with
      | some p =>
        rw [interpretOp_undo_scan_found h₁ ht (by rw [hl])]
        exact Or.inr ⟨p.1, false, rfl⟩
      | none => rw [interpretOp_undo_scan_none h₁ ht hl]; exact Or.inl rfl
  · by_cases h₂ : s.type = "redo"
    · cases ht : targetOf s.payload with
      | some t =>
        cases hm : mapGet t room.opMap with
        | some i =>
          rw [interpretOp_redo_found h₂ ht hm]
          exact Or.inr ⟨i, true, rfl⟩
        | none => rw [interpretOp_redo_missing h₂ ht hm]; exact Or.inl rfl
      | none => rw [interpretOp_redo_none h₂ ht]; exact Or.inl rfl
    · rw [interpretOp_other h₁ h₂]; exact Or.inl rfl

/-- Unfolding of `appendOpRoom` in terms of the interpretation step. -/
theorem appendOpRoom_eq (roomId : List Char) (opRaw : RawOp) (socketId : String)
    (now : Nat) (room : RoomState) :
    appendOpRoom roomId opRaw socketId now room =
      ((interpretOp (mkStamped roomId opRaw socketId now (room.seq + 1)) room).1,
       { room with
           ops := (interpretOp (mkStamped roomId opRaw socketId now (room.seq + 1)) room).2 ++
             [(interpretOp (mkStamped roomId opRaw socketId now (room.seq + 1)) room).1]
           seq := room.seq + 1
           opMap := mapSet
             (interpretOp (mkStamped roomId opRaw socketId now (room.seq + 1)) room).1.opID
             (interpretOp (mkStamped roomId opRaw socketId now (room.seq + 1)) room).2.length
             room.opMap }) := rfl

/-! ## Plumbing lemmas for the manager state -/

theorem roomOf_ensure_self (roomId : List Char) (st : ManagerState) :
    roomOf roomId (ensureRoom roomId st) = roomOf roomId st := by
  unfold ensureRoom
  by_cases h : (mapGet roomId st.rooms).isSome
  · rw [if_pos h]
  · rw [if_neg h]
    unfold roomOf
    rw [Option.not_isSome_iff_eq_none] at h
    rw [mapGet_mapSet_self, h]
    rfl

theorem mapGet_ensure_ne {roomId r' : List Char} (st : ManagerState)
    (h : r' ≠ roomId) :
    mapGet r' (ensureRoom roomId st).rooms = mapGet r' st.rooms := by
  unfold ensureRoom
  split
  · rfl
  · exact mapGet_mapSet_ne emptyRoom st.rooms h

theorem roomOf_putRoom_self (roomId : List Char) (room : RoomState)
    (st : ManagerState) : roomOf roomId (putRoom roomId room st) = room := by
  simp [roomOf, putRoom, mapGet_mapSet_self]

theorem mapGet_putRoom_ne {roomId r' : List Char} (room : RoomState)
    (st : ManagerState) (h : r' ≠ roomId) :
    mapGet r' (putRoom roomId room st).rooms = mapGet r' st.rooms :=
  mapGet_mapSet_ne room st.rooms h

/-- Characterization of `appendOp` at the manager level: the returned op and
the named room are those produced by `appendOpRoom` on the room's previous
state (a fresh room if absent), and every other room is untouched. -/
theorem appendOp_spec (roomId : List Char) (opRaw : RawOp) (socketId : String)
    (now : Nat) (st : ManagerState) :
    (appendOp roomId opRaw socketId now st).1 =
        (appendOpRoom roomId opRaw socketId now (roomOf roomId st)).1 ∧
      roomOf roomId (appendOp roomId opRaw socketId now st).2 =
        (appendOpRoom roomId opRaw socketId now (roomOf roomId st)).2 ∧
      ∀ r', r' ≠ roomId →
        mapGet r' (appendOp roomId opRaw socketId now st).2.rooms =
          mapGet r' st.rooms := by
  refine ⟨?_, ?_, ?_⟩
  · show (appendOpRoom roomId opRaw socketId now
        (roomOf roomId (ensureRoom roomId st))).1 = _
    rw [roomOf_ensure_self]
  · show roomOf roomId (putRoom roomId
        (appendOpRoom roomId opRaw socketId now
          (roomOf roomId (ensureRoom roomId st))).2 (ensureRoom roomId st)) = _
    rw [roomOf_putRoom_self, roomOf_ensure_self]
  · intro r' hne
    show mapGet r' (putRoom roomId
        (appendOpRoom roomId opRaw socketId now
          (roomOf roomId (ensureRoom roomId st))).2 (ensureRoom roomId st)).rooms = _
    rw [mapGet_putRoom_ne _ _ hne, mapGet_ensure_ne _ hne]


/-! ## The structural invariant and its preservation -/

theorem roomInv_emptyRoom (r : List Char) : RoomInv r emptyRoom := by
  refine ⟨rfl, rfl, rfl, rfl, ?_⟩
  simp [KeysNodup, emptyRoom]

theorem stateInv_initial : StateInv initialState := by
  intro p hp
  simp [initialState] at hp

theorem roomInv_roomOf {st : ManagerState} (h : StateInv st) (r : List Char) :
    RoomInv r (roomOf r st) := by
  unfold roomOf
  cases hm : mapGet r st.rooms with
  | none => exact roomInv_emptyRoom r
  | some room => exact h (r, room) (mapGet_some_mem hm)

theorem stateInv_ensure {st : ManagerState} (h : StateInv st) (r : List Char) :
    StateInv (ensureRoom r st) := by
  unfold ensureRoom
  split
  · exact h
  · intro p hp
    rcases mem_mapSet hp with rfl | hp'
    · exact roomInv_emptyRoom r
    · exact h p hp'

theorem stateInv_putRoom {st : ManagerState} {r : List Char} {room : RoomState}
    (h : StateInv st) (hr : RoomInv r room) : StateInv (putRoom r room st) := by
  intro p hp
  rcases mem_mapSet hp with rfl | hp'
  · exact hr
  · exact h p hp'

theorem mapGet_some_of_mem_keysNodup {κ α : Type} [DecidableEq κ] :
    ∀ (l : List (κ × α)), KeysNodup l → ∀ {k : κ} {v : α},
      (k, v) ∈ l → mapGet k l = some v
  | [] => by
    intro _ k v hm
    cases hm
  | (k', v') :: rest => by
    intro h k v hm
    have hn : KeysNodup rest := by
      unfold KeysNodup at h ⊢
      simp only [List.map_cons, List.nodup_cons] at h
      exact h.2
    rcases List.mem_cons.mp hm with he | hm'
    · obtain ⟨rfl, rfl⟩ : k' = k ∧ v' = v := by
        injection he with h1 h2
        exact ⟨h1.symm, h2.symm⟩
      simp [mapGet]
    · by_cases hk : k' = k
      · exfalso
        subst hk
        unfold KeysNodup at h
        simp only [List.map_cons, List.nodup_cons] at h
        exact h.1 (List.mem_map_of_mem Prod.fst hm')
      · simp only [mapGet, if_neg hk]
        exact mapGet_some_of_mem_keysNodup rest hn hm'

theorem keysNodup_opMapCanon (r : List Char) (n : Nat) :
    KeysNodup ((List.range n).map (fun i => (mkOpID r (i + 1), i))) := by
  unfold KeysNodup
  rw [List.map_map]
  refine List.Nodup.map ?_ (List.nodup_range n)
  intro a b hab
  simp only [Function.comp] at hab
  have := mkOpID_seq_inj hab
  omega

theorem mapGet_opMapCanon {r : List Char} {n : Nat} {t : List Char} {i : Nat} :
    mapGet t ((List.range n).map (fun j => (mkOpID r (j + 1), j))) = some i ↔
      (i < n ∧ t = mkOpID r (i + 1)) := by
  constructor
  · intro h
    have hm := mapGet_some_mem h
    simp only [List.mem_map, List.mem_range] at hm
    obtain ⟨j, hj, hje⟩ := hm
    rw [Prod.mk.injEq] at hje
    obtain ⟨hje1, rfl⟩ := hje
    exact ⟨hj, hje1.symm⟩
  · rintro ⟨hi, ht⟩
    apply mapGet_some_of_mem_keysNodup _ (keysNodup_opMapCanon r n)
    simp only [List.mem_map, List.mem_range]
    exact ⟨i, hi, by rw [ht]⟩

theorem mapGet_opMapCanon_none (r : List Char) (n : Nat) {t : List Char}
    (h : ∀ i, i < n → t ≠ mkOpID r (i + 1)) :
    mapGet t ((List.range n).map (fun j => (mkOpID r (j + 1), j))) = none := by
  rw [mapGet_eq_none_iff]
  intro p hp
  simp only [List.mem_map, List.mem_range] at hp
  obtain ⟨j, hj, rfl⟩ := hp
  exact fun he => h j hj he.symm

theorem roomInv_opMap_lookup {r : List Char} {room : RoomState}
    (hinv : RoomInv r room) {t : List Char} {i : Nat} :
    mapGet t room.opMap = some i ↔
      (i < room.ops.length ∧ t = mkOpID r (i + 1)) := by
  rw [hinv.2.2.2.1]
  exact mapGet_opMapCanon

theorem roomInv_seq_at {r : List Char} {room : RoomState}
    (hinv : RoomInv r room) {j : Nat} {o : Op}
    (h : room.ops[j]? = some o) : o.seq = j + 1 := by
  have hj : j < room.ops.length := by
    by_contra hle
    rw [List.getElem?_eq_none (by omega)] at h
    cases h
  have hm := congrArg (fun l => l[j]?) hinv.2.1
  simp only [List.getElem?_map, h] at hm
  rw [List.getElem?_eq_getElem (by simpa using hj), List.getElem_range'] at hm
  simp at hm
  omega

theorem roomInv_opID_at {r : List Char} {room : RoomState}
    (hinv : RoomInv r room) {j : Nat} {o : Op}
    (h : room.ops[j]? = some o) : o.opID = mkOpID r (j + 1) := by
  have hj : j < room.ops.length := by
    by_contra hle
    rw [List.getElem?_eq_none (by omega)] at h
    cases h
  have hm := congrArg (fun l => l[j]?) hinv.2.2.1
  simp only [List.getElem?_map, h] at hm
  rw [List.getElem?_eq_getElem (by simpa using hj), List.getElem_range'] at hm
  simp at hm
  rw [hm]
  norm_num [Nat.add_comm]


theorem roomInv_appendOpRoom {r : List Char} {room : RoomState}
    (hinv : RoomInv r room) (opRaw : RawOp) (socketId : String) (now : Nat) :
    RoomInv r (appendOpRoom r opRaw socketId now room).2 := by
  obtain ⟨hseq, hmseq, hmid, hmap, hcl⟩ := hinv
  rw [appendOpRoom_eq]
  set q := interpretOp (mkStamped r opRaw socketId now (room.seq + 1)) room with hq
  have hf := interpretOp_fst_fields (mkStamped r opRaw socketId now (room.seq + 1)) room
  have hsnd := interpretOp_snd (mkStamped r opRaw socketId now (room.seq + 1)) room
  rw [← hq] at hf hsnd
  have hlen : q.2.length = room.ops.length := by
    rcases hsnd with h | ⟨i, b, h⟩
    · rw [h]
    · rw [h, setActive_length]
  have hmseq2 : q.2.map Op.seq = room.ops.map Op.seq := by
    rcases hsnd with h | ⟨i, b, h⟩
    · rw [h]
    · rw [h, setActive_map_seq]
  have hmid2 : q.2.map Op.opID = room.ops.map Op.opID := by
    rcases hsnd with h | ⟨i, b, h⟩
    · rw [h]
    · rw [h, setActive_map_opID]
  have hq1seq : q.1.seq = room.ops.length + 1 := by
    rw [hf.1]
    show room.seq + 1 = _
    rw [hseq]
  have hq1id : q.1.opID = mkOpID r (room.ops.length + 1) := by
    rw [hf.2.1]
    show mkOpID r (room.seq + 1) = _
    rw [hseq]
  refine ⟨?_, ?_, ?_, ?_, ?_⟩
  · show room.seq + 1 = (q.2 ++ [q.1]).length
    rw [List.length_append, hlen, hseq, List.length_singleton]
  · show (q.2 ++ [q.1]).map Op.seq = List.range' 1 (q.2 ++ [q.1]).length
    rw [List.map_append, hmseq2, hmseq, List.length_append, hlen, List.length_singleton]
    simp only [List.map_cons, List.map_nil, hq1seq]
    rw [List.range'_concat]
    simp [Nat.add_comm]
  · show (q.2 ++ [q.1]).map Op.opID =
      (List.range' 1 (q.2 ++ [q.1]).length).map (mkOpID r)
    rw [List.map_append, hmid2, hmid, List.length_append, hlen, List.length_singleton]
    simp only [List.map_cons, List.map_nil, hq1id]
    rw [List.range'_concat, List.map_append]
    simp [Nat.add_comm]
  · show mapSet q.1.opID q.2.length room.opMap =
      (List.range (q.2 ++ [q.1]).length).map (fun i => (mkOpID r (i + 1), i))
    rw [List.length_append, hlen, List.length_singleton, hmap, hq1id]
    rw [mapSet_of_get_none _ (mapGet_opMapCanon_none r room.ops.length ?_)]
    · rw [List.range_succ, List.map_append]
      rfl
    · intro i hi he
      have := mkOpID_seq_inj he
      omega
  · exact hcl

theorem stateInv_addClient {st : ManagerState} (h : StateInv st)
    (r : List Char) (s u c : String) : StateInv (addClient r s u c st).2 := by
  have h1 := stateInv_ensure h r
  show StateInv (putRoom r
    { roomOf r (ensureRoom r st) with
        clients := mapSet s ⟨s, u, c⟩ (roomOf r (ensureRoom r st)).clients }
    (ensureRoom r st))
  apply stateInv_putRoom h1
  obtain ⟨a, b, c2, d, e⟩ := roomInv_roomOf h1 r
  exact ⟨a, b, c2, d, keysNodup_mapSet _ _ e⟩

theorem mem_removeClientRooms_snd {s : String} :
    ∀ (l : List (List Char × RoomState)) (p : List Char × RoomState),
      p ∈ (removeClientRooms s l).2 →
      ∃ q ∈ l, p = (q.1, { q.2 with clients := (mapDelete s q.2.clients).2 })
  | [] => by
    intro p hp
    simp [removeClientRooms] at hp
  | (r, room) :: rest => by
    intro p hp
    simp only [removeClientRooms, List.mem_cons] at hp
    rcases hp with rfl | hp'
    · exact ⟨(r, room), List.mem_cons_self _ _, rfl⟩
    · obtain ⟨q, hq, he⟩ := mem_removeClientRooms_snd rest p hp'
      exact ⟨q, List.mem_cons_of_mem _ hq, he⟩

theorem stateInv_removeClient {st : ManagerState} (h : StateInv st)
    (s : String) : StateInv (removeClientBySocket s st).2 := by
  intro p hp
  obtain ⟨q, hq, rfl⟩ := mem_removeClientRooms_snd st.rooms p hp
  obtain ⟨a, b, c2, d, e⟩ := h q hq
  exact ⟨a, b, c2, d, keysNodup_mapDelete _ e⟩

theorem stateInv_appendOp {st : ManagerState} (h : StateInv st)
    (r : List Char) (raw : RawOp) (s : String) (now : Nat) :
    StateInv (appendOp r raw s now st).2 := by
  have h1 := stateInv_ensure h r
  show StateInv (putRoom r
    (appendOpRoom r raw s now (roomOf r (ensureRoom r st))).2 (ensureRoom r st))
  exact stateInv_putRoom h1 (roomInv_appendOpRoom (roomInv_roomOf h1 r) raw s now)

/-- Every reachable manager state satisfies the structural invariant. -/
theorem reachable_stateInv {st : ManagerState} (h : Reachable st) : StateInv st := by
  induction h with
  | init => exact stateInv_initial
  | addClient r s u c _ ih => exact stateInv_addClient ih r s u c
  | removeClient s _ ih => exact stateInv_removeClient ih s
  | getClients r _ ih => exact stateInv_ensure ih r
  | getHistory r limit _ ih => exact stateInv_ensure ih r
  | appendOp r raw s now _ ih => exact stateInv_appendOp ih r raw s now

/-- The structural invariant of any room view of a reachable state. -/
theorem reachable_roomInv {st : ManagerState} (h : Reachable st) (r : List Char) :
    RoomInv r (roomOf r st) :=
  roomInv_roomOf (reachable_stateInv h) r


/-! ## Derived facts about `appendOp` -/

/-- The log after `appendOp` is the interpreted old log with the stamped op
pushed at the end, and the returned op is the interpreted stamped op. -/
theorem appendOp_ops (roomId : List Char) (opRaw : RawOp) (socketId : String)
    (now : Nat) (st : ManagerState) :
    (roomOf roomId (appendOp roomId opRaw socketId now st).2).ops =
        (interpretOp (mkStamped roomId opRaw socketId now ((roomOf roomId st).seq + 1))
          (roomOf roomId st)).2 ++ [(appendOp roomId opRaw socketId now st).1] ∧
      (appendOp roomId opRaw socketId now st).1 =
        (interpretOp (mkStamped roomId opRaw socketId now ((roomOf roomId st).seq + 1))
          (roomOf roomId st)).1 := by
  obtain ⟨h1, h2, _⟩ := appendOp_spec roomId opRaw socketId now st
  rw [appendOpRoom_eq] at h1 h2
  constructor
  · rw [h2, h1]
  · rw [h1]

/-- Fields of the op returned by `appendOp`. -/
theorem appendOp_fst_fields (roomId : List Char) (opRaw : RawOp) (socketId : String)
    (now : Nat) (st : ManagerState) :
    (appendOp roomId opRaw socketId now st).1.seq = (roomOf roomId st).seq + 1 ∧
      (appendOp roomId opRaw socketId now st).1.opID =
        mkOpID roomId ((roomOf roomId st).seq + 1) ∧
      (appendOp roomId opRaw socketId now st).1.clientId = socketId ∧
      (appendOp roomId opRaw socketId now st).1.type = opRaw.type ∧
      (appendOp roomId opRaw socketId now st).1.timestamp = now ∧
      (appendOp roomId opRaw socketId now st).1.active = true := by
  have h1 := (appendOp_ops roomId opRaw socketId now st).2
  have hf := interpretOp_fst_fields
    (mkStamped roomId opRaw socketId now ((roomOf roomId st).seq + 1)) (roomOf roomId st)
  rw [← h1] at hf
  exact hf

/-- Frame shape of one `appendOp` call: the new log is the old one with at
most a single `active`-flag toggle, plus the returned op appended. -/
theorem appendOp_log_shape (roomId : List Char) (opRaw : RawOp) (socketId : String)
    (now : Nat) (st : ManagerState) :
    ∃ ops₁ : List Op,
      (roomOf roomId (appendOp roomId opRaw socketId now st).2).ops =
          ops₁ ++ [(appendOp roomId opRaw socketId now st).1] ∧
        ops₁.length = (roomOf roomId st).ops.length ∧
        (∀ j : Nat, (ops₁[j]?).map clearActive =
          ((roomOf roomId st).ops[j]?).map clearActive) ∧
        (ops₁ = (roomOf roomId st).ops ∨
          ∃ i b, ops₁ = setActive (roomOf roomId st).ops i b) := by
  obtain ⟨hops, -⟩ := appendOp_ops roomId opRaw socketId now st
  refine ⟨_, hops, ?_, ?_, interpretOp_snd _ _⟩
  · rcases interpretOp_snd
      (mkStamped roomId opRaw socketId now ((roomOf roomId st).seq + 1))
      (roomOf roomId st) with h | ⟨i, b, h⟩
    · rw [h]
    · rw [h, setActive_length]
  · intro j
    rcases interpretOp_snd
      (mkStamped roomId opRaw socketId now ((roomOf roomId st).seq + 1))
      (roomOf roomId st) with h | ⟨i, b, h⟩
    · rw [h]
    · rw [h]
      exact setActive_getElem?_clearActive b _ i j

/-- Type and payload of the freshly stamped op, before interpretation. -/
theorem mkStamped_fields (roomId : List Char) (opRaw : RawOp) (socketId : String)
    (now : Nat) (seq : Nat) :
    (mkStamped roomId opRaw socketId now seq).type = opRaw.type ∧
      (mkStamped roomId opRaw socketId now seq).payload = stampPayload opRaw :=
  ⟨rfl, rfl⟩


/-- A no-target undo on a reachable state with at least one active stroke:
the backward scan picks the active stroke with the greatest `seq`, the new
log deactivates exactly it, and the stored undo payload names its `opID`. -/
theorem undo_noTarget_resolves {st : ManagerState} (hst : Reachable st)
    (roomId : List Char) {opRaw : RawOp} (hty : opRaw.type = "undo")
    (htgt : targetOf (stampPayload opRaw) = none) (socketId : String) (now : Nat)
    (hex : ∃ o ∈ (roomOf roomId st).ops, o.type = "stroke" ∧ o.active = true) :
    ∃ i : Nat, ∃ o : Op,
      (roomOf roomId st).ops[i]? = some o ∧ o.type = "stroke" ∧ o.active = true ∧
        (∀ j : Nat, ∀ o' : Op, (roomOf roomId st).ops[j]? = some o' →
          o'.type = "stroke" → o'.active = true → o'.seq ≤ o.seq) ∧
        (appendOp roomId opRaw socketId now st).1.payload =
          StoredPayload.obj (some o.opID) "" ∧
        (roomOf roomId (appendOp roomId opRaw socketId now st).2).ops =
          setActive (roomOf roomId st).ops i false ++
            [(appendOp roomId opRaw socketId now st).1] := by
  have hne : lastActiveStroke (roomOf roomId st).ops ≠ none := by
    intro h
    obtain ⟨o, ho, hp⟩ := hex
    exact lastActiveStroke_none h o ho hp
  rcases hl : lastActiveStroke (roomOf roomId st).ops with _ | ⟨i, o⟩
  · exact absurd hl hne
  obtain ⟨hg, hp, hlast⟩ := lastActiveStroke_some hl
  have hinv := reachable_roomInv hst roomId
  have hsty : (mkStamped roomId opRaw socketId now
      ((roomOf roomId st).seq + 1)).type = "undo" := by
    rw [(mkStamped_fields _ _ _ _ _).1, hty]
  have hstp : targetOf (mkStamped roomId opRaw socketId now
      ((roomOf roomId st).seq + 1)).payload = none := by
    rw [(mkStamped_fields _ _ _ _ _).2]
    exact htgt
  have hint := interpretOp_undo_scan_found hsty hstp hl
  obtain ⟨hops, hfst⟩ := appendOp_ops roomId opRaw socketId now st
  refine ⟨i, o, hg, hp.1, hp.2, ?_, ?_, ?_⟩
  · intro j o' hj hty2 hact
    by_cases hji : j ≤ i
    · have h1 := roomInv_seq_at hinv hj
      have h2 := roomInv_seq_at hinv hg
      omega
    · exact absurd ⟨hty2, hact⟩ (hlast j (by omega) o' hj)
  · rw [hfst, hint]
  · rw [hops, hint]

/-- C1: for every room, after any sequence of N `appendOp` calls on that room
(any mix of operation types), the `seq` values stamped on the stored
operations are exactly `1..N` in call order — strictly increasing, no
duplicates, no gaps, starting at 1 for a fresh room.  Formally: in every
reachable state the stored `seq`s of each room's log read `1, 2, …, len` in
log order, the counter equals the log length, and each further `appendOp`
call grows the named room's log by exactly one op stamped `len + 1`. -/
theorem C1_seq_gapless {st : ManagerState} (hst : Reachable st) :
    (∀ roomId room, mapGet roomId st.rooms = some room →
        room.ops.map Op.seq = List.range' 1 room.ops.length ∧
          room.seq = room.ops.length) ∧
      ∀ roomId opRaw socketId now,
        (roomOf roomId (appendOp roomId opRaw socketId now st).2).ops.length =
            (roomOf roomId st).ops.length + 1 ∧
          (appendOp roomId opRaw socketId now st).1.seq =
            (roomOf roomId st).ops.length + 1 := by
  have hsi := reachable_stateInv hst
  constructor
  · intro roomId room hm
    have h := hsi (roomId, room) (mapGet_some_mem hm)
    exact ⟨h.2.1, h.1⟩
  · intro roomId opRaw socketId now
    have hinv := roomInv_roomOf hsi roomId
    constructor
    · obtain ⟨ops₁, hops, hlen, -, -⟩ := appendOp_log_shape roomId opRaw socketId now st
      rw [hops, List.length_append, hlen, List.length_singleton]
    · rw [(appendOp_fst_fields roomId opRaw socketId now st).1, hinv.1]

/-- Witness for C1 at a concrete reachable state (two strokes and one undo in
room `r`): the stored `seq`s are `1, 2, 3` and a further call stamps `4`. -/
theorem C1_seq_gapless_witness :
    ((roomOf ['r'] exA3).ops.map Op.seq =
        List.range' 1 (roomOf ['r'] exA3).ops.length ∧
      (roomOf ['r'] exA3).seq = (roomOf ['r'] exA3).ops.length) ∧
      (appendOp ['r'] strokeRaw "erin" 14 exA3).1.seq =
        (roomOf ['r'] exA3).ops.length + 1 := by
  have hst : Reachable exA3 :=
    Reachable.appendOp ['r'] undoNoTargetRaw "alice" 12
      (Reachable.appendOp ['r'] strokeRaw "bob" 11
        (Reachable.appendOp ['r'] strokeRaw "alice" 10 Reachable.init))
  have h := C1_seq_gapless hst
  exact ⟨h.1 ['r'] (roomOf ['r'] exA3) (by decide),
    (h.2 ['r'] strokeRaw "erin" 14).2⟩

/-- C2: whenever a room's log holds at least one active stroke, an `undo`
without an explicit target deactivates exactly the active stroke with the
highest `seq` (the most recent one) and stores that stroke's `opID` as the
undo payload's `targetOpID`; a second such undo issued afterwards targets the
most recent stroke still active then (the next most recent). -/
theorem C2_undo_picks_most_recent {st : ManagerState} (hst : Reachable st)
    (roomId : List Char) {raw1 raw2 : RawOp}
    (hty1 : raw1.type = "undo") (ht1 : targetOf (stampPayload raw1) = none)
    (hty2 : raw2.type = "undo") (ht2 : targetOf (stampPayload raw2) = none)
    (s1 s2 : String) (n1 n2 : Nat)
    (hex : ∃ o ∈ (roomOf roomId st).ops, o.type = "stroke" ∧ o.active = true) :
    (∃ i : Nat, ∃ o : Op,
      (roomOf roomId st).ops[i]? = some o ∧ o.type = "stroke" ∧ o.active = true ∧
        (∀ j : Nat, ∀ o' : Op, (roomOf roomId st).ops[j]? = some o' →
          o'.type = "stroke" → o'.active = true → o'.seq ≤ o.seq) ∧
        (appendOp roomId raw1 s1 n1 st).1.payload =
          StoredPayload.obj (some o.opID) "" ∧
        (roomOf roomId (appendOp roomId raw1 s1 n1 st).2).ops =
          setActive (roomOf roomId st).ops i false ++
            [(appendOp roomId raw1 s1 n1 st).1]) ∧
    ∀ _hex2 : ∃ o ∈ (roomOf roomId (appendOp roomId raw1 s1 n1 st).2).ops,
        o.type = "stroke" ∧ o.active = true,
      ∃ i : Nat, ∃ o : Op,
        (roomOf roomId (appendOp roomId raw1 s1 n1 st).2).ops[i]? = some o ∧
          o.type = "stroke" ∧ o.active = true ∧
          (∀ j : Nat, ∀ o' : Op,
            (roomOf roomId (appendOp roomId raw1 s1 n1 st).2).ops[j]? = some o' →
            o'.type = "stroke" → o'.active = true → o'.seq ≤ o.seq) ∧
          (appendOp roomId raw2 s2 n2 (appendOp roomId raw1 s1 n1 st).2).1.payload =
            StoredPayload.obj (some o.opID) "" ∧
          (roomOf roomId
              (appendOp roomId raw2 s2 n2 (appendOp roomId raw1 s1 n1 st).2).2).ops =
            setActive (roomOf roomId (appendOp roomId raw1 s1 n1 st).2).ops i false ++
              [(appendOp roomId raw2 s2 n2 (appendOp roomId raw1 s1 n1 st).2).1] := by
  refine ⟨undo_noTarget_resolves hst roomId hty1 ht1 s1 n1 hex, ?_⟩
  intro hex2
  exact undo_noTarget_resolves (Reachable.appendOp roomId raw1 s1 n1 hst)
    roomId hty2 ht2 s2 n2 hex2

/-- Witness for C2 on the concrete two-stroke room (S1 by alice, S2 by bob):
the hypotheses hold and the two no-target undos resolve as stated. -/
theorem C2_undo_picks_most_recent_witness :
    (∃ o ∈ (roomOf ['r'] exA2).ops, o.type = "stroke" ∧ o.active = true) ∧
    ((∃ i : Nat, ∃ o : Op,
      (roomOf ['r'] exA2).ops[i]? = some o ∧ o.type = "stroke" ∧ o.active = true ∧
        (∀ j : Nat, ∀ o' : Op, (roomOf ['r'] exA2).ops[j]? = some o' →
          o'.type = "stroke" → o'.active = true → o'.seq ≤ o.seq) ∧
        (appendOp ['r'] undoNoTargetRaw "alice" 12 exA2).1.payload =
          StoredPayload.obj (some o.opID) "" ∧
        (roomOf ['r'] (appendOp ['r'] undoNoTargetRaw "alice" 12 exA2).2).ops =
          setActive (roomOf ['r'] exA2).ops i false ++
            [(appendOp ['r'] undoNoTargetRaw "alice" 12 exA2).1]) ∧
    ∀ _hex2 : ∃ o ∈ (roomOf ['r'] (appendOp ['r'] undoNoTargetRaw "alice" 12 exA2).2).ops,
        o.type = "stroke" ∧ o.active = true,
      ∃ i : Nat, ∃ o : Op,
        (roomOf ['r'] (appendOp ['r'] undoNoTargetRaw "alice" 12 exA2).2).ops[i]? = some o ∧
          o.type = "stroke" ∧ o.active = true ∧
          (∀ j : Nat, ∀ o' : Op,
            (roomOf ['r'] (appendOp ['r'] undoNoTargetRaw "alice" 12 exA2).2).ops[j]? = some o' →
            o'.type = "stroke" → o'.active = true → o'.seq ≤ o.seq) ∧
          (appendOp ['r'] undoNoTargetRaw "bob" 13
              (appendOp ['r'] undoNoTargetRaw "alice" 12 exA2).2).1.payload =
            StoredPayload.obj (some o.opID) "" ∧
          (roomOf ['r']
              (appendOp ['r'] undoNoTargetRaw "bob" 13
                (appendOp ['r'] undoNoTargetRaw "alice" 12 exA2).2).2).ops =
            setActive (roomOf ['r'] (appendOp ['r'] undoNoTargetRaw "alice" 12 exA2).2).ops
                i false ++
              [(appendOp ['r'] undoNoTargetRaw "bob" 13
                (appendOp ['r'] undoNoTargetRaw "alice" 12 exA2).2).1]) :=
  ⟨by decide,
    @C2_undo_picks_most_recent exA2
      (Reachable.appendOp ['r'] strokeRaw "bob" 11
        (Reachable.appendOp ['r'] strokeRaw "alice" 10 Reachable.init)) ['r']
      undoNoTargetRaw undoNoTargetRaw
      rfl rfl rfl rfl "alice" "bob" 12 13 (by decide)⟩


/-- Counterexample to C3 as stated: after a no-target undo on an empty room
(the stored undo op keeps `active = true`) and a second undo explicitly
targeting that stored undo's `opID`, the log of the reachable state `exB2`
holds an op of type `undo` whose `active` flag is `false` — the code never
checks the target's type, so undo/redo ops are not immune to toggling. -/
theorem C3_counterexample :
    Reachable exB2 ∧
      ∃ o ∈ (roomOf ['q'] exB2).ops, o.type = "undo" ∧ o.active = false :=
  ⟨Reachable.appendOp ['q'] ⟨"undo", .obj (some (mkOpID ['q'] 1)) ""⟩ "alice" 1
      (Reachable.appendOp ['q'] undoNoTargetRaw "alice" 0 Reachable.init),
    by decide⟩

/-- C3 (amended): during a single `appendOp` call at most one existing op's
`active` flag changes and no other field of any existing op changes; the new
op itself is appended unconditionally with `active = true`; when the call is
an `undo` with no explicit target the toggled op (if any) is an active
stroke; but an explicit-target undo/redo toggles whatever op the id names —
possibly a stored undo/redo op — so stored undo/redo ops are not immutable.
Other rooms are untouched. -/
theorem C3_frame_amended (roomId : List Char) (opRaw : RawOp) (socketId : String)
    (now : Nat) (st : ManagerState) :
    ∃ ops₁ : List Op,
      (roomOf roomId (appendOp roomId opRaw socketId now st).2).ops =
          ops₁ ++ [(appendOp roomId opRaw socketId now st).1] ∧
        ops₁.length = (roomOf roomId st).ops.length ∧
        (∀ j : Nat, (ops₁[j]?).map clearActive =
          ((roomOf roomId st).ops[j]?).map clearActive) ∧
        (ops₁ = (roomOf roomId st).ops ∨
          ∃ i b, ops₁ = setActive (roomOf roomId st).ops i b) ∧
        (opRaw.type = "undo" → targetOf (stampPayload opRaw) = none →
          ops₁ = (roomOf roomId st).ops ∨
            ∃ i : Nat, ∃ o : Op, (roomOf roomId st).ops[i]? = some o ∧
              o.type = "stroke" ∧ o.active = true ∧
              ops₁ = setActive (roomOf roomId st).ops i false) ∧
        (appendOp roomId opRaw socketId now st).1.active = true ∧
        ∀ r', r' ≠ roomId →
          mapGet r' (appendOp roomId opRaw socketId now st).2.rooms =
            mapGet r' st.rooms := by
  obtain ⟨hops, hfst⟩ := appendOp_ops roomId opRaw socketId now st
  refine ⟨_, hops, ?_, ?_, interpretOp_snd _ _, ?_,
    (appendOp_fst_fields roomId opRaw socketId now st).2.2.2.2.2,
    (appendOp_spec roomId opRaw socketId now st).2.2⟩
  · rcases interpretOp_snd
      (mkStamped roomId opRaw socketId now ((roomOf roomId st).seq + 1))
      (roomOf roomId st) with h | ⟨i, b, h⟩
    · rw [h]
    · rw [h, setActive_length]
  · intro j
    rcases interpretOp_snd
      (mkStamped roomId opRaw socketId now ((roomOf roomId st).seq + 1))
      (roomOf roomId st) with h | ⟨i, b, h⟩
    · rw [h]
    · rw [h]
      exact setActive_getElem?_clearActive b _ i j
  · intro hty htgt
    have hsty : (mkStamped roomId opRaw socketId now
        ((roomOf roomId st).seq + 1)).type = "undo" := by
      rw [(mkStamped_fields _ _ _ _ _).1, hty]
    have hstp : targetOf (mkStamped roomId opRaw socketId now
        ((roomOf roomId st).seq + 1)).payload = none := by
      rw [(mkStamped_fields _ _ _ _ _).2]
      exact htgt
    rcases hl : lastActiveStroke (roomOf roomId st).ops with _ | ⟨i, o⟩
    · rw [interpretOp_undo_scan_none hsty hstp hl]
      exact Or.inl rfl
    · obtain ⟨hg, hp, -⟩ := lastActiveStroke_some hl
      rw [interpretOp_undo_scan_found hsty hstp hl]
      exact Or.inr ⟨i, o, hg, hp.1, hp.2, rfl⟩

/-- Counterexample to C4 as stated: the very first op of room `q` in the
reachable state `exB1` is an undo stored *without* any resolved
`targetOpID` (its payload is the raw `{}` object, and the truthiness read
of `targetOpID` yields nothing), because no active stroke existed. -/
theorem C4_counterexample :
    Reachable exB1 ∧
      ∃ o ∈ (roomOf ['q'] exB1).ops,
        o.type = "undo" ∧ targetOf o.payload = none :=
  ⟨Reachable.appendOp ['q'] undoNoTargetRaw "alice" 0 Reachable.init, by decide⟩

/-- C4 (amended): the stored payload of an appended op keeps an explicit
(truthy) `targetOpID` verbatim; a no-target undo gets the payload
`{ targetOpID: o.opID }` exactly when the backward scan found an active
stroke `o`, and keeps the raw payload — hence stores no resolved target —
when none was active; every non-undo op (including any redo) stores its raw
payload unchanged, so a no-target redo also lacks a stored target. -/
theorem C4_target_resolution_amended (roomId : List Char) (opRaw : RawOp)
    (socketId : String) (now : Nat) (st : ManagerState) :
    (∀ t, targetOf (stampPayload opRaw) = some t →
        (appendOp roomId opRaw socketId now st).1.payload = stampPayload opRaw) ∧
      (opRaw.type = "undo" → targetOf (stampPayload opRaw) = none →
        (∀ i : Nat, ∀ o : Op,
          lastActiveStroke (roomOf roomId st).ops = some (i, o) →
            (appendOp roomId opRaw socketId now st).1.payload =
              StoredPayload.obj (some o.opID) "") ∧
          (lastActiveStroke (roomOf roomId st).ops = none →
            (appendOp roomId opRaw socketId now st).1.payload = stampPayload opRaw)) ∧
      (opRaw.type ≠ "undo" →
        (appendOp roomId opRaw socketId now st).1.payload = stampPayload opRaw) := by
  obtain ⟨-, hfst⟩ := appendOp_ops roomId opRaw socketId now st
  have hm := mkStamped_fields roomId opRaw socketId now ((roomOf roomId st).seq + 1)
  refine ⟨?_, ?_, ?_⟩
  · intro t ht
    have hstp : targetOf (mkStamped roomId opRaw socketId now
        ((roomOf roomId st).seq + 1)).payload = some t := by
      rw [hm.2]
      exact ht
    by_cases hty : (mkStamped roomId opRaw socketId now
        ((roomOf roomId st).seq + 1)).type = "undo"
    · cases hmg : mapGet t (roomOf roomId st).opMap with
      | some i => rw [hfst, interpretOp_undo_found hty hstp hmg, hm.2]
      | none => rw [hfst, interpretOp_undo_missing hty hstp hmg, hm.2]
    · by_cases hty2 : (mkStamped roomId opRaw socketId now
          ((roomOf roomId st).seq + 1)).type = "redo"
      · cases hmg : mapGet t (roomOf roomId st).opMap with
        | some i => rw [hfst, interpretOp_redo_found hty2 hstp hmg, hm.2]
        | none => rw [hfst, interpretOp_redo_missing hty2 hstp hmg, hm.2]
      · rw [hfst, interpretOp_other hty hty2, hm.2]
  · intro hty htgt
    have hsty : (mkStamped roomId opRaw socketId now
        ((roomOf roomId st).seq + 1)).type = "undo" := by
      rw [hm.1, hty]
    have hstp : targetOf (mkStamped roomId opRaw socketId now
        ((roomOf roomId st).seq + 1)).payload = none := by
      rw [hm.2]
      exact htgt
    constructor
    · intro i o hl
      rw [hfst, interpretOp_undo_scan_found hsty hstp hl]
    · intro hl
      rw [hfst, interpretOp_undo_scan_none hsty hstp hl, hm.2]
  · intro hty
    have hsty : ¬(mkStamped roomId opRaw socketId now
        ((roomOf roomId st).seq + 1)).type = "undo" := by
      rw [hm.1]
      exact hty
    by_cases hty2 : (mkStamped roomId opRaw socketId now
        ((roomOf roomId st).seq + 1)).type = "redo"
    · cases hstp : targetOf (mkStamped roomId opRaw socketId now
          ((roomOf roomId st).seq + 1)).payload with
      | some t =>
        cases hmg : mapGet t (roomOf roomId st).opMap with
        | some i => rw [hfst, interpretOp_redo_found hty2 hstp hmg, hm.2]
        | none => rw [hfst, interpretOp_redo_missing hty2 hstp hmg, hm.2]
      | none => rw [hfst, interpretOp_redo_none hty2 hstp, hm.2]
    · rw [hfst, interpretOp_other hsty hty2, hm.2]

/-- Counterexample to C5 as stated: `appendOp` pushes every op it is given —
its `presence` branch alters nothing but the push still happens — so after
one `presence`-typed `op` message the reachable state `exPresence.2` has a
log entry whose type is neither `stroke`, `undo` nor `redo`. -/
theorem C5_counterexample :
    Reachable exPresence.2 ∧
      ∃ o ∈ (roomOf ['r'] exPresence.2).ops, o.type = "presence" :=
  ⟨Reachable.appendOp ['r'] ⟨"presence", .obj none ""⟩ "dave" 0 Reachable.init,
    by decide⟩

/-- C5 (amended): `appendOp` appends exactly one op whose `type` is the raw
op's `type`, whatever that is — in particular a `presence`-typed op passed to
`appendOp` does enter the log.  (Cursor messages never reach the log only
because the gateway's `cursor` handler forwards them without calling the
manager at all.) -/
theorem C5_any_type_logged_amended (roomId : List Char) (opRaw : RawOp)
    (socketId : String) (now : Nat) (st : ManagerState) :
    (appendOp roomId opRaw socketId now st).1.type = opRaw.type ∧
      ∃ ops₁ : List Op,
        (roomOf roomId (appendOp roomId opRaw socketId now st).2).ops =
            ops₁ ++ [(appendOp roomId opRaw socketId now st).1] ∧
          ops₁.length = (roomOf roomId st).ops.length := by
  obtain ⟨ops₁, hops, hlen, -, -⟩ := appendOp_log_shape roomId opRaw socketId now st
  exact ⟨(appendOp_fst_fields roomId opRaw socketId now st).2.2.2.1,
    ops₁, hops, hlen⟩


/-- C6: an undo whose explicit target is not in the room's index, or a
no-target undo when nothing is active, is not an error: the undo op is still
appended (stamped with the incremented counter) and no existing op changes at
all. -/
theorem C6_unresolvable_undo_recorded {st : ManagerState} (roomId : List Char)
    {opRaw : RawOp} (hty : opRaw.type = "undo") (socketId : String) (now : Nat) :
    (∀ t, targetOf (stampPayload opRaw) = some t →
        mapGet t (roomOf roomId st).opMap = none →
        (roomOf roomId (appendOp roomId opRaw socketId now st).2).ops =
            (roomOf roomId st).ops ++ [(appendOp roomId opRaw socketId now st).1] ∧
          (appendOp roomId opRaw socketId now st).1.seq =
            (roomOf roomId st).seq + 1) ∧
      (targetOf (stampPayload opRaw) = none →
        (∀ o ∈ (roomOf roomId st).ops, ¬(o.type = "stroke" ∧ o.active = true)) →
        (roomOf roomId (appendOp roomId opRaw socketId now st).2).ops =
            (roomOf roomId st).ops ++ [(appendOp roomId opRaw socketId now st).1] ∧
          (appendOp roomId opRaw socketId now st).1.seq =
            (roomOf roomId st).seq + 1) := by
  obtain ⟨hops, -⟩ := appendOp_ops roomId opRaw socketId now st
  have hm := mkStamped_fields roomId opRaw socketId now ((roomOf roomId st).seq + 1)
  have hsty : (mkStamped roomId opRaw socketId now
      ((roomOf roomId st).seq + 1)).type = "undo" := by
    rw [hm.1, hty]
  have hseq := (appendOp_fst_fields roomId opRaw socketId now st).1
  constructor
  · intro t ht hmg
    have hstp : targetOf (mkStamped roomId opRaw socketId now
        ((roomOf roomId st).seq + 1)).payload = some t := by
      rw [hm.2]
      exact ht
    exact ⟨by rw [hops, interpretOp_undo_missing hsty hstp hmg], hseq⟩
  · intro ht hnone
    have hstp : targetOf (mkStamped roomId opRaw socketId now
        ((roomOf roomId st).seq + 1)).payload = none := by
      rw [hm.2]
      exact ht
    have hl := lastActiveStroke_none_of_forall hnone
    exact ⟨by rw [hops, interpretOp_undo_scan_none hsty hstp hl], hseq⟩

/-- Witness for C6: an undo targeting the never-minted id `"x"` on a fresh
manager, and a no-target undo on an empty room, are both recorded as pure
appends. -/
theorem C6_unresolvable_undo_recorded_witness :
    ((roomOf ['r'] (appendOp ['r'] ⟨"undo", .obj (some ['x']) ""⟩ "sam" 0
          initialState).2).ops =
        (roomOf ['r'] initialState).ops ++
          [(appendOp ['r'] ⟨"undo", .obj (some ['x']) ""⟩ "sam" 0 initialState).1] ∧
      (appendOp ['r'] ⟨"undo", .obj (some ['x']) ""⟩ "sam" 0 initialState).1.seq =
        (roomOf ['r'] initialState).seq + 1) ∧
    ((roomOf ['q'] (appendOp ['q'] undoNoTargetRaw "sam" 0 initialState).2).ops =
        (roomOf ['q'] initialState).ops ++
          [(appendOp ['q'] undoNoTargetRaw "sam" 0 initialState).1] ∧
      (appendOp ['q'] undoNoTargetRaw "sam" 0 initialState).1.seq =
        (roomOf ['q'] initialState).seq + 1) :=
  ⟨(@C6_unresolvable_undo_recorded initialState ['r']
      ⟨"undo", .obj (some ['x']) ""⟩ rfl "sam" 0).1 ['x'] (by decide) (by decide),
    (@C6_unresolvable_undo_recorded initialState ['q']
      undoNoTargetRaw rfl "sam" 0).2 (by decide) (by decide)⟩

/-- C7: a redo with an explicit target found in the room's index re-activates
exactly that op; a redo without a target performs no implicit search and
changes nothing, though it is still appended. -/
theorem C7_redo_explicit_only {st : ManagerState} (roomId : List Char)
    {opRaw : RawOp} (hty : opRaw.type = "redo") (socketId : String) (now : Nat) :
    (∀ t, ∀ i : Nat, targetOf (stampPayload opRaw) = some t →
        mapGet t (roomOf roomId st).opMap = some i →
        (roomOf roomId (appendOp roomId opRaw socketId now st).2).ops =
            setActive (roomOf roomId st).ops i true ++
              [(appendOp roomId opRaw socketId now st).1] ∧
          ∀ o : Op, (roomOf roomId st).ops[i]? = some o →
            (roomOf roomId (appendOp roomId opRaw socketId now st).2).ops[i]? =
              some { o with active := true }) ∧
      (targetOf (stampPayload opRaw) = none →
        (roomOf roomId (appendOp roomId opRaw socketId now st).2).ops =
          (roomOf roomId st).ops ++ [(appendOp roomId opRaw socketId now st).1]) := by
  obtain ⟨hops, -⟩ := appendOp_ops roomId opRaw socketId now st
  have hm := mkStamped_fields roomId opRaw socketId now ((roomOf roomId st).seq + 1)
  have hsty : (mkStamped roomId opRaw socketId now
      ((roomOf roomId st).seq + 1)).type = "redo" := by
    rw [hm.1, hty]
  constructor
  · intro t i ht hmg
    have hstp : targetOf (mkStamped roomId opRaw socketId now
        ((roomOf roomId st).seq + 1)).payload = some t := by
      rw [hm.2]
      exact ht
    have heq : (roomOf roomId (appendOp roomId opRaw socketId now st).2).ops =
        setActive (roomOf roomId st).ops i true ++
          [(appendOp roomId opRaw socketId now st).1] := by
      rw [hops, interpretOp_redo_found hsty hstp hmg]
    refine ⟨heq, ?_⟩
    intro o hgo
    have hi : i < (roomOf roomId st).ops.length := by
      by_contra hle
      rw [List.getElem?_eq_none (by omega)] at hgo
      cases hgo
    rw [heq, List.getElem?_append_left (by rw [setActive_length]; exact hi),
      setActive_getElem?, if_pos rfl, hgo]
    rfl
  · intro ht
    have hstp : targetOf (mkStamped roomId opRaw socketId now
        ((roomOf roomId st).seq + 1)).payload = none := by
      rw [hm.2]
      exact ht
    rw [hops, interpretOp_redo_none hsty hstp]

/-- Witness for C7: in the room with S1, S2 and an undo of S2, a redo
explicitly targeting S2 re-activates it, and a no-target redo is a pure
append. -/
theorem C7_redo_explicit_only_witness :
    ((roomOf ['r'] (appendOp ['r'] ⟨"redo", .obj (some (mkOpID ['r'] 2)) ""⟩
          "bob" 15 exA3).2).ops =
        setActive (roomOf ['r'] exA3).ops 1 true ++
          [(appendOp ['r'] ⟨"redo", .obj (some (mkOpID ['r'] 2)) ""⟩ "bob" 15 exA3).1] ∧
      ∀ o : Op, (roomOf ['r'] exA3).ops[1]? = some o →
        (roomOf ['r'] (appendOp ['r'] ⟨"redo", .obj (some (mkOpID ['r'] 2)) ""⟩
            "bob" 15 exA3).2).ops[1]? = some { o with active := true }) ∧
    ((roomOf ['r'] (appendOp ['r'] ⟨"redo", .obj none ""⟩ "bob" 16 exA3).2).ops =
      (roomOf ['r'] exA3).ops ++
        [(appendOp ['r'] ⟨"redo", .obj none ""⟩ "bob" 16 exA3).1]) :=
  ⟨(@C7_redo_explicit_only exA3 ['r'] ⟨"redo", .obj (some (mkOpID ['r'] 2)) ""⟩
      rfl "bob" 15).1 (mkOpID ['r'] 2) 1 (by decide) (by decide),
    (@C7_redo_explicit_only exA3 ['r'] ⟨"redo", .obj none ""⟩
      rfl "bob" 16).2 (by decide)⟩

/-- C8: `getHistory(roomId, limit)` returns exactly the last
`min(limit, len)` operations of the room's *current* log (default limit 500),
in original order: it is the unique length-`min(limit, len)` suffix of the
log as it stands at read time, so an entry whose `active` flag was mutated by
a later undo is returned with the mutated value. -/
theorem C8_getHistory_recent_suffix (roomId : List Char) (limit : Nat)
    (st : ManagerState) :
    (getHistory roomId limit st).1 =
        (roomOf roomId st).ops.drop ((roomOf roomId st).ops.length - limit) ∧
      (getHistory roomId limit st).1.length =
        min limit (roomOf roomId st).ops.length ∧
      (getHistory roomId limit st).1 <:+ (roomOf roomId st).ops ∧
      (∀ j : Nat, (getHistory roomId limit st).1[j]? =
        (roomOf roomId st).ops[((roomOf roomId st).ops.length - limit) + j]?) ∧
      getHistoryDefault roomId st = getHistory roomId 500 st := by
  have h1 : (getHistory roomId limit st).1 =
      (roomOf roomId st).ops.drop ((roomOf roomId st).ops.length - limit) := by
    show ((roomOf roomId (ensureRoom roomId st)).ops).drop _ = _
    rw [roomOf_ensure_self]
  refine ⟨h1, ?_, ?_, ?_, rfl⟩
  · rw [h1, List.length_drop]
    omega
  · rw [h1]
    exact List.drop_suffix _ _
  · intro j
    rw [h1, List.getElem?_drop]


theorem removeClientRooms_fst (s : String) :
    ∀ l : List (List Char × RoomState),
      (removeClientRooms s l).1 =
        (l.filter (fun p => (mapGet s p.2.clients).isSome)).map Prod.fst
  | [] => rfl
  | (r, room) :: rest => by
    simp only [removeClientRooms, removeClientRooms_fst s rest, mapDelete_fst,
      List.filter_cons]
    by_cases h : (mapGet s room.clients).isSome
    · simp [h]
    · simp [h]

theorem removeClientRooms_snd_eq (s : String) :
    ∀ l : List (List Char × RoomState),
      (removeClientRooms s l).2 =
        l.map (fun p => (p.1, { p.2 with clients := (mapDelete s p.2.clients).2 }))
  | [] => rfl
  | (r, room) :: rest => by
    simp only [removeClientRooms, removeClientRooms_snd_eq s rest, List.map_cons]

/-- C9: `removeClientBySocket` removes the socket from the membership map of
every room and returns exactly the ids of the rooms that contained it (in
room-map order); it touches no log, counter or index; and on a socket that is
a member of no room it is a no-op returning `[]` and leaving the whole state
unchanged. -/
theorem C9_removeClient_exact {st : ManagerState} (hst : Reachable st)
    (socketId : String) :
    (removeClientBySocket socketId st).1 =
        (st.rooms.filter (fun p => (mapGet socketId p.2.clients).isSome)).map
          Prod.fst ∧
      (removeClientBySocket socketId st).2.rooms =
        st.rooms.map
          (fun p => (p.1, { p.2 with clients := (mapDelete socketId p.2.clients).2 })) ∧
      (∀ p ∈ (removeClientBySocket socketId st).2.rooms,
        mapGet socketId p.2.clients = none) ∧
      ((∀ p ∈ st.rooms, mapGet socketId p.2.clients = none) →
        (removeClientBySocket socketId st).1 = [] ∧
          (removeClientBySocket socketId st).2 = st) := by
  refine ⟨removeClientRooms_fst socketId st.rooms,
    removeClientRooms_snd_eq socketId st.rooms, ?_, ?_⟩
  · intro p hp
    obtain ⟨q, hq, rfl⟩ := mem_removeClientRooms_snd st.rooms p hp
    have hinv := reachable_stateInv hst q hq
    exact mapGet_mapDelete_self socketId hinv.2.2.2.2
  · intro hall
    constructor
    · show (removeClientRooms socketId st.rooms).1 = []
      rw [removeClientRooms_fst socketId st.rooms]
      have hnil : st.rooms.filter (fun p => (mapGet socketId p.2.clients).isSome)
          = [] := by
        rw [List.filter_eq_nil_iff]
        intro p hp
        rw [hall p hp]
        simp
      rw [hnil]
      rfl
    · show ManagerState.mk (removeClientRooms socketId st.rooms).2 = st
      rw [removeClientRooms_snd_eq socketId st.rooms]
      have hid : st.rooms.map
          (fun p => (p.1, { p.2 with clients := (mapDelete socketId p.2.clients).2 }))
          = st.rooms := by
        have hc : ∀ p ∈ st.rooms,
            (p.1, { p.2 with clients := (mapDelete socketId p.2.clients).2 }) = p := by
          intro p hp
          rw [mapDelete_of_get_none (hall p hp)]
        have := List.map_congr_left hc
        simpa using this
      rw [hid]

/-- Witness for C9 on the concrete membership state (socket `s1` in rooms
`r` and `w`, socket `s2` in `w`): removal returns `["r", "w"]` and scrubs
`s1` everywhere; removing the absent socket `zz` is the identity. -/
theorem C9_removeClient_exact_witness :
    ((removeClientBySocket "s1" exMembers).1 =
        (exMembers.rooms.filter
          (fun p => (mapGet "s1" p.2.clients).isSome)).map Prod.fst ∧
      (∀ p ∈ (removeClientBySocket "s1" exMembers).2.rooms,
        mapGet "s1" p.2.clients = none)) ∧
      ((removeClientBySocket "zz" exMembers).1 = [] ∧
        (removeClientBySocket "zz" exMembers).2 = exMembers) := by
  have hst : Reachable exMembers :=
    Reachable.addClient ['w'] "s2" "carol" "#0f0"
      (Reachable.addClient ['w'] "s1" "bob" "#00f"
        (Reachable.addClient ['r'] "s1" "bob" "#00f" Reachable.init))
  have h1 := C9_removeClient_exact hst "s1"
  have h2 := C9_removeClient_exact hst "zz"
  exact ⟨⟨h1.1, h1.2.2.1⟩, h2.2.2.2 (by decide)⟩

/-- C10: an undo/redo whose explicit target id was minted by a *different*
room than the one named in the request finds nothing: per-room `opMap`s only
hold ids minted by their own room and minted ids never collide across rooms,
so the lookup fails, no op's `active` flag changes anywhere (the named room
only gets the pure append; all other rooms are untouched), and the call still
succeeds. -/
theorem C10_cross_room_target_isolated {st : ManagerState} (hst : Reachable st)
    {r1 r2 : List Char} (hne : r1 ≠ r2) {t : List Char} {i : Nat}
    (hmint : mapGet t (roomOf r2 st).opMap = some i)
    {opRaw : RawOp} (hty : opRaw.type = "undo" ∨ opRaw.type = "redo")
    (htgt : targetOf (stampPayload opRaw) = some t) (socketId : String) (now : Nat) :
    mapGet t (roomOf r1 st).opMap = none ∧
      (roomOf r1 (appendOp r1 opRaw socketId now st).2).ops =
        (roomOf r1 st).ops ++ [(appendOp r1 opRaw socketId now st).1] ∧
      ∀ r', r' ≠ r1 →
        mapGet r' (appendOp r1 opRaw socketId now st).2.rooms =
          mapGet r' st.rooms := by
  have hinv2 := reachable_roomInv hst r2
  have hinv1 := reachable_roomInv hst r1
  obtain ⟨hi, htid⟩ := (roomInv_opMap_lookup hinv2).mp hmint
  have hnone : mapGet t (roomOf r1 st).opMap = none := by
    rw [hinv1.2.2.2.1]
    apply mapGet_opMapCanon_none
    intro j hj he
    rw [htid] at he
    exact mkOpID_ne_of_room_ne (Ne.symm hne) (i + 1) (j + 1) he
  obtain ⟨hops, -⟩ := appendOp_ops r1 opRaw socketId now st
  have hm := mkStamped_fields r1 opRaw socketId now ((roomOf r1 st).seq + 1)
  have hstp : targetOf (mkStamped r1 opRaw socketId now
      ((roomOf r1 st).seq + 1)).payload = some t := by
    rw [hm.2]
    exact htgt
  refine ⟨hnone, ?_, (appendOp_spec r1 opRaw socketId now st).2.2⟩
  rcases hty with hty | hty
  · have hsty : (mkStamped r1 opRaw socketId now
        ((roomOf r1 st).seq + 1)).type = "undo" := by
      rw [hm.1, hty]
    rw [hops, interpretOp_undo_missing hsty hstp hnone]
  · have hsty : (mkStamped r1 opRaw socketId now
        ((roomOf r1 st).seq + 1)).type = "redo" := by
      rw [hm.1, hty]
    rw [hops, interpretOp_redo_missing hsty hstp hnone]

/-- Witness for C10: the id `r::000001` minted by room `r` (which holds one
stroke) is not found by an undo issued against room `b`, whose log receives
the undo as a pure append while room `r` is untouched. -/
theorem C10_cross_room_target_isolated_witness :
    mapGet (mkOpID ['r'] 1) (roomOf ['b'] exA1).opMap = none ∧
      (roomOf ['b'] (appendOp ['b'] ⟨"undo", .obj (some (mkOpID ['r'] 1)) ""⟩
          "sam" 5 exA1).2).ops =
        (roomOf ['b'] exA1).ops ++
          [(appendOp ['b'] ⟨"undo", .obj (some (mkOpID ['r'] 1)) ""⟩ "sam" 5 exA1).1] ∧
      ∀ r', r' ≠ ['b'] →
        mapGet r' (appendOp ['b'] ⟨"undo", .obj (some (mkOpID ['r'] 1)) ""⟩
          "sam" 5 exA1).2.rooms = mapGet r' exA1.rooms :=
  @C10_cross_room_target_isolated exA1
    (Reachable.appendOp ['r'] strokeRaw "alice" 10 Reachable.init)
    ['b'] ['r'] (by decide) (mkOpID ['r'] 1) 0 (by decide)
    ⟨"undo", .obj (some (mkOpID ['r'] 1)) ""⟩ (Or.inl rfl) (by decide) "sam" 5

end Canvas
